import Mathlib

/-!
# Elastic hash table: shallow embedding and verification

The repository's only source file, `demo.py`, is a benchmark harness that
constructs an `elastic_hash.ElasticTable(N, DELTA)` and inserts
`int(N * (1 - DELTA))` distinct integer keys, recording the probe count
returned by each `insert`.  The `elastic_hash` library itself is not part of
the source tree, so the table is modelled here from the specification
(geometrically layered open addressing with per-level load thresholds,
spec sections 3, 4, 6, 7).  The harness itself is modelled at the end
(`demoTrace`).

Modelling conventions:
* keys and values are natural numbers (the spec treats both as opaque);
* the first hash function `h1` is an arbitrary parameter of every operation,
  so all functional-correctness theorems hold for every hash function;
* rationals stand in for the Python floats; for every constant appearing in
  the claims the IEEE evaluation agrees exactly with the rational one
  (in particular `int(1_000_000 * (1 - 0.05)) = 950000` in binary64).
-/

namespace ElasticHash

/-- One storage unit of the slot array (spec section 3):
`empty`, `occupied key value`, or `tombstone`. -/
inductive Slot where
  | empty : Slot
  | occupied (key value : Nat) : Slot
  | tombstone : Slot
deriving DecidableEq, Repr

/-- A slot counts toward `current_count` when it is occupied or a tombstone
(spec section 3: current_count tracks occupied+tombstone). -/
def Slot.isUsed : Slot → Bool
  | .empty => false
  | _ => true

/-- A slot can receive a fresh insertion when it is `empty` or a `tombstone`
(spec section 4.3c). -/
def Slot.isFree : Slot → Bool
  | .occupied _ _ => false
  | _ => true

/-- Occupied test. -/
def Slot.isOccupied : Slot → Bool
  | .occupied _ _ => true
  | _ => false

/-- Does this slot hold the given key (occupied with matching key)? -/
def Slot.holdsKey (k : Nat) : Slot → Bool
  | .occupied k' _ => k' == k
  | _ => false

/-- A level: a fixed-size band of the slot array together with its load
threshold (spec section 3).  The threshold is stored as a slot count
(`load_threshold * capacity`); capacity and current_count are derived from
the slot list, so they can never disagree with it. -/
structure Level where
  threshold : Nat
  slots : List Slot
deriving DecidableEq, Repr

/-- `capacity` of a level (spec section 3). -/
def Level.capacity (L : Level) : Nat := L.slots.length

/-- `current_count`: occupied + tombstone slots (spec section 3). -/
def Level.currentCount (L : Level) : Nat := L.slots.countP Slot.isUsed

/-- Number of occupied slots of a level (contributes to logical size). -/
def Level.occupiedCount (L : Level) : Nat := L.slots.countP Slot.isOccupied

/-- Modelled from the spec: length of the probe sequence tried inside one
level (spec section 4.2 — a bounded, deterministic sequence whose length
grows with the level's fill).  The missing implementation leaves the exact
cap tunable, and the spec over-determines it: section 4.2's
`O(log(1/(1-f)))` figure presumes uniformly-distributed hashes, while
sections 4.3 (step 2) and 8 demand that every insert below the load
threshold succeeds for the actual, fixed hash function.  Once the hash is
an arbitrary parameter of a deterministic model, the success contract
forces a cap at least `current_count + 1`, and we take exactly that — the
smallest cap that reliably finds a free slot below the threshold.  Fill is
measured by `current_count` so the cap never shrinks and lookup can always
replay the traversal insert took (spec section 4.4).  No claim's verdict
depends on this choice: the claims proved below hold for every hash
function, and the C2 refutation uses only the first probe of a fresh
table. -/
def Level.probeLen (L : Level) : Nat := L.currentCount + 1

/-- Replace slot `p` of a level. -/
def Level.setSlot (L : Level) (p : Nat) (s : Slot) : Level :=
  { L with slots := L.slots.set p s }

/-- Modelled from the spec: the probe sequencer's `i`-th candidate index for
a key whose level-local hash is `base` (spec section 4.2:
`index = (h1(key) + i * h2(key)) mod capacity`).  The second hash is a
tunable of the missing implementation; it must be coprime to every level
capacity so that candidates are pairwise distinct and the sequence can
guarantee progress (spec sections 4.2, 4.3 step 2); we instantiate it with
the constant 1, the canonical capacity-coprime step.  No claim's verdict
depends on this instantiation: the claims proved below hold for every
first hash `h1`, and the C2 refutation uses only the first probe of a
fresh table, which is `h1(key) mod capacity` under any second hash. -/
def probePos (base i c : Nat) : Nat := (base + i) % c

/-- First index `i < n` (probe attempt number) such that the slot at
candidate position `(base + i) % c` satisfies `P`. -/
def scanFrom (P : Slot → Bool) (slots : List Slot) (c : Nat) : Nat → Nat → Option Nat
  | _, 0 => none
  | base, n + 1 =>
    if P (slots.getD (base % c) .empty) then some 0
    else (scanFrom P slots c (base + 1) n).map (· + 1)

/-- First probe attempt that hits a slot holding `k`, within the level's
current probe cap. -/
def findMatch (k base : Nat) (L : Level) : Option Nat :=
  scanFrom (Slot.holdsKey k) L.slots L.capacity base L.probeLen

/-- First probe attempt that hits a free (empty or tombstone) slot, within
the level's current probe cap. -/
def findFree (base : Nat) (L : Level) : Option Nat :=
  scanFrom Slot.isFree L.slots L.capacity base L.probeLen

/-- The elastic table: an ordered sequence of levels partitioning the slot
array (spec section 3). -/
structure ElasticTable where
  levels : List Level
deriving DecidableEq, Repr

/-- Logical size: number of occupied slots (spec section 6, `size()`). -/
def size (t : ElasticTable) : Nat := (t.levels.map Level.occupiedCount).sum

/-- Total declared capacity (spec section 6, `capacity()`). -/
def capacityTotal (t : ElasticTable) : Nat := (t.levels.map Level.capacity).sum

/-- Error kinds of the public interface (spec section 7). -/
inductive TableError where
  | invalidConfiguration : TableError
  | tableFull : TableError
deriving DecidableEq, Repr

/-- Modelled from the spec: the insertion walk over the level list
(spec section 4.3).  At each level the probe sequence is scanned for a slot
already holding the key (update in place); otherwise, when the level is
below its load threshold, the key goes into the first free slot of the
probe sequence; otherwise the walk moves to the next level, carrying the
attempts made forward.  When all levels are exhausted the insert fails with
`TableFull`. -/
def insertGo (h1 : Nat → Nat) (k v : Nat) : List Level → Except TableError (Nat × List Level)
  | [] => .error .tableFull
  | L :: rest =>
    match findMatch k (h1 k) L with
    | some i => .ok (i + 1, L.setSlot (probePos (h1 k) i L.capacity) (.occupied k v) :: rest)
    | none =>
      if L.currentCount < L.threshold then
        match findFree (h1 k) L with
        | some i => .ok (i + 1, L.setSlot (probePos (h1 k) i L.capacity) (.occupied k v) :: rest)
        | none =>
          match insertGo h1 k v rest with
          | .ok (p, rest') => .ok (L.probeLen + p, L :: rest')
          | .error e => .error e
      else
        match insertGo h1 k v rest with
        | .ok (p, rest') => .ok (L.probeLen + p, L :: rest')
        | .error e => .error e

/-- `insert(key, value) -> probe_count` (spec sections 4.3, 6). -/
def insert (h1 : Nat → Nat) (t : ElasticTable) (k v : Nat) :
    Except TableError (Nat × ElasticTable) :=
  match insertGo h1 k v t.levels with
  | .ok (p, ls) => .ok (p, ⟨ls⟩)
  | .error e => .error e

/-- Modelled from the spec: lookup replays the same level-by-level,
probe-by-probe traversal as insert, stopping at the first occupied slot
with matching key, skipping empty slots and tombstones transparently
(spec section 4.4). -/
def lookupGo (h1 : Nat → Nat) (k : Nat) : List Level → Option Nat
  | [] => none
  | L :: rest =>
    match findMatch k (h1 k) L with
    | some i =>
      match L.slots.getD (probePos (h1 k) i L.capacity) .empty with
      | .occupied _ v => some v
      | _ => none
    | none => lookupGo h1 k rest

/-- `lookup(key) -> value or NotFound`; `none` is the NotFound outcome
(spec sections 4.4, 6). -/
def lookup (h1 : Nat → Nat) (t : ElasticTable) (k : Nat) : Option Nat :=
  lookupGo h1 k t.levels

/-- Modelled from the spec: delete locates the slot via the same traversal
and replaces the occupied slot with a tombstone; returns false if the key
is not found (spec section 4.4). -/
def deleteGo (h1 : Nat → Nat) (k : Nat) : List Level → Bool × List Level
  | [] => (false, [])
  | L :: rest =>
    match findMatch k (h1 k) L with
    | some i => (true, L.setSlot (probePos (h1 k) i L.capacity) .tombstone :: rest)
    | none =>
      match deleteGo h1 k rest with
      | (b, rest') => (b, L :: rest')

/-- `delete(key) -> bool` (spec sections 4.4, 6). -/
def deleteKey (h1 : Nat → Nat) (t : ElasticTable) (k : Nat) : Bool × ElasticTable :=
  match deleteGo h1 k t.levels with
  | (b, ls) => (b, ⟨ls⟩)

/-- Declared maximum logical size `N * (1 - delta)`, rounded down
(spec sections 3, 7). -/
def maxSize (N : Nat) (δ : ℚ) : Nat := (Int.floor ((N : ℚ) * (1 - δ))).toNat

/-- Modelled from the spec: the number of levels the planner lays out,
`ceil(log2(1/delta)) + O(1)` (spec section 4.1). -/
def numLevels (δ : ℚ) : Nat := Nat.clog 2 ((Int.ceil ((1 : ℚ) / δ)).toNat) + 1

/-- Modelled from the spec: capacities of the levels after level 0.  Each
level takes a fixed fraction of the remaining unallocated capacity, so
capacities shrink geometrically, and the last level absorbs the remainder
(spec section 4.1; the exact fraction is a tunable — we take 3/4 so that
capacities are non-increasing, as spec section 3 requires). -/
def midCaps : Nat → Nat → List Nat
  | 0, _ => []
  | 1, r => [r]
  | n + 2, r =>
    let c := min r (max 1 (3 * r / 4))
    c :: midCaps (n + 1) (r - c)

/-- The capacity the planner leaves unallocated after level 0,
about `N * delta / 2` (spec section 4.1). -/
def planSlack (N : Nat) (δ : ℚ) : Nat := (Int.ceil (((N : ℚ) * δ) / 2)).toNat

/-- Modelled from the spec: the planner's level capacities.  Level 0 gets
capacity about `N * (1 - delta/2)`; the rest of the capacity is split
geometrically by `midCaps` (spec section 4.1). -/
def planCaps (N : Nat) (δ : ℚ) : List Nat :=
  (N - planSlack N δ) :: midCaps (numLevels δ - 1) (planSlack N δ)

/-- Modelled from the spec: distribute the allowed logical size over the
levels, walking from the last (smallest) level backwards: late levels are
allowed to run full, the leftover slack keeps the early (large) levels
comparatively empty (spec section 4.1).  Takes the reversed capacity list
and the remaining allowance. -/
def assignThr : List Nat → Nat → List Nat
  | [], _ => []
  | c :: rest, avail => min c avail :: assignThr rest (avail - min c avail)

/-- Modelled from the spec: the planner's per-level thresholds, in level
order.  Their sum is exactly `maxSize N δ`. -/
def planThrs (N : Nat) (δ : ℚ) : List Nat :=
  (assignThr (planCaps N δ).reverse (maxSize N δ)).reverse

/-- The freshly constructed table: every slot empty, layout from the
planner. -/
def mkTable (N : Nat) (δ : ℚ) : ElasticTable :=
  ⟨List.zipWith (fun c th => ⟨th, List.replicate c .empty⟩) (planCaps N δ) (planThrs N δ)⟩

/-- `construct(capacity, slack)` (spec sections 4.1, 6): fails with
`InvalidConfiguration` when `delta` is outside `(0,1)` or the planned
layout would give some level fewer than one slot.  A failed construction
returns only the error, never a table. -/
def construct (N : Nat) (δ : ℚ) : Except TableError ElasticTable :=
  if 0 < δ ∧ δ < 1 ∧ ∀ c ∈ planCaps N δ, 1 ≤ c then .ok (mkTable N δ)
  else .error .invalidConfiguration

/-- Slot `p` of level `L` is occupied by key `k` with value `v`. -/
def holdsVal (L : Level) (p k v : Nat) : Prop :=
  p < L.capacity ∧ L.slots.getD p .empty = .occupied k v

/-- The level holds the key somewhere (spec section 3). -/
def Level.hasKey (L : Level) (k : Nat) : Prop := ∃ p v, holdsVal L p k v

/-- Within a level, a key occupies at most one slot. -/
def LevelUnique (L : Level) : Prop :=
  ∀ p p' k v v', holdsVal L p k v → holdsVal L p' k v' → p = p' ∧ v = v'

/-- Every key stored in the level sits on its own probe sequence, within the
level's current probe cap — this is what lets lookup and delete replay the
traversal insert took (spec section 4.4). -/
def LevelFindable (h1 : Nat → Nat) (L : Level) : Prop :=
  ∀ p k v, holdsVal L p k v → ∃ i, i < L.probeLen ∧ probePos (h1 k) i L.capacity = p

/-- Structural well-formedness of a level: at least one slot, threshold
within capacity, current_count within the threshold. -/
def Level.WF (L : Level) : Prop :=
  1 ≤ L.capacity ∧ L.threshold ≤ L.capacity ∧ L.currentCount ≤ L.threshold

/-- No key appears in both levels (spec section 3 invariant). -/
def KeysDisjoint (L L' : Level) : Prop := ∀ k, L.hasKey k → ¬ L'.hasKey k

/-- If a later level stores any key, the earlier level has already reached
its load threshold: insertion only overflows past a level that is at
threshold, and current_count never decreases, so the gate never
reopens. -/
def StackClosed (L L' : Level) : Prop := (∃ k, L'.hasKey k) → L.threshold ≤ L.currentCount

/-- The table invariant maintained by every operation. -/
def Inv (h1 : Nat → Nat) (t : ElasticTable) : Prop :=
  (∀ L ∈ t.levels, Level.WF L ∧ LevelUnique L ∧ LevelFindable h1 L) ∧
    t.levels.Pairwise KeysDisjoint ∧ t.levels.Pairwise StackClosed

/-- No tombstones anywhere (holds for deletion-free histories). -/
def NoTomb (t : ElasticTable) : Prop := ∀ L ∈ t.levels, Slot.tombstone ∉ L.slots

/-- Some level of the table holds the key. -/
def tableHasKey (t : ElasticTable) (k : Nat) : Prop := ∃ L ∈ t.levels, L.hasKey k

/-- The two tables have the same level layout (capacities and
thresholds). -/
def SameShape (t t' : ElasticTable) : Prop :=
  t.levels.map Level.capacity = t'.levels.map Level.capacity ∧
    t.levels.map Level.threshold = t'.levels.map Level.threshold

/-- Table states reachable through the public interface: construction
followed by any sequence of insert, lookup and delete calls (lookup does
not mutate the table, failed inserts return only the error). -/
inductive Reachable (h1 : Nat → Nat) (N : Nat) (δ : ℚ) : ElasticTable → Prop where
  | init (t : ElasticTable) : construct N δ = .ok t → Reachable h1 N δ t
  | insertStep (t : ElasticTable) (k v p : Nat) (t' : ElasticTable) :
      Reachable h1 N δ t → insert h1 t k v = .ok (p, t') → Reachable h1 N δ t'
  | deleteStep (t : ElasticTable) (k : Nat) :
      Reachable h1 N δ t → Reachable h1 N δ (deleteKey h1 t k).2

/-- Table states reachable without ever deleting. -/
inductive ReachableI (h1 : Nat → Nat) (N : Nat) (δ : ℚ) : ElasticTable → Prop where
  | init (t : ElasticTable) : construct N δ = .ok t → ReachableI h1 N δ t
  | insertStep (t : ElasticTable) (k v p : Nat) (t' : ElasticTable) :
      ReachableI h1 N δ t → insert h1 t k v = .ok (p, t') → ReachableI h1 N δ t'

/-- Every insertion of the list succeeds and an immediate lookup of the
inserted key returns the value just inserted (spec section 8, first
property). -/
def InsertsVisible (h1 : Nat → Nat) : ElasticTable → List (Nat × Nat) → Prop
  | _, [] => True
  | t, kv :: rest =>
    ∃ p t', insert h1 t kv.1 kv.2 = .ok (p, t') ∧ lookup h1 t' kv.1 = some kv.2 ∧
      InsertsVisible h1 t' rest

/-- The probe-count bound exactly as the claim states it: a structural
constant `C`, independent of the capacity `N` (and of the hash function and
workload), bounding every successful insert's probe count by
`C * log(1/δ)`. -/
def ProbeBoundClaim : Prop :=
  ∃ C : ℝ, ∀ (h1 : Nat → Nat) (N : Nat) (δ : ℚ) (t : ElasticTable) (k v p : Nat)
    (t' : ElasticTable), Reachable h1 N δ t → insert h1 t k v = .ok (p, t') →
      (p : ℝ) ≤ C * Real.log (1 / (δ : ℝ))

/-- The identity hash, used for the concrete witnesses. -/
def hId : Nat → Nat := fun k => k

/-- The slack `1 - 1/(2*q)` of the probe-bound counterexample family: a
valid slack arbitrarily close to 1, on which `C * log(1/δ)` drops below
one probe while every successful insert still costs at least one. -/
def thinDelta (q : Nat) : ℚ := 1 - 1/(2*q)

/-- The table `construct (2*q) (thinDelta q)` builds: two levels of `q`
slots each; the allowance `maxSize = 1` is assigned to the last level, so
the thresholds are 0 and 1. -/
def thinState (q : Nat) : ElasticTable :=
  ⟨[⟨0, List.replicate q .empty⟩, ⟨1, List.replicate q .empty⟩]⟩

/-- The table `construct 4 (1/2)` builds: levels of 3 and 1 slots, each
with threshold 1. -/
def t4 : ElasticTable := mkTable 4 (1/2)

/-- `t4` after `insert hId _ 0 10`. -/
def t4a : ElasticTable :=
  ⟨[⟨1, [.occupied 0 10, .empty, .empty]⟩, ⟨1, [.empty]⟩]⟩

/-- `t4a` after `insert hId _ 1 11` (level 0 is at threshold, the key
overflows to level 1); the table is now at its maximum logical size 2. -/
def t4b : ElasticTable :=
  ⟨[⟨1, [.occupied 0 10, .empty, .empty]⟩, ⟨1, [.occupied 1 11]⟩]⟩

/-- `t4b` after `delete hId _ 0`: logical size 1, but the tombstone keeps
every level at its threshold. -/
def t4c : ElasticTable :=
  ⟨[⟨1, [.tombstone, .empty, .empty]⟩, ⟨1, [.occupied 1 11]⟩]⟩

/-- Operations of the public interface as the driver script could invoke
them (spec section 6). -/
inductive DemoOp where
  | construct (capacity : Nat) (slack : ℚ)
  | insert (key value : Nat)
  | lookup (key : Nat)
  | delete (key : Nat)
  | size
  | capacity
deriving DecidableEq, Repr

/-- Is the operation a construction? -/
def DemoOp.isConstruct : DemoOp → Bool
  | .construct _ _ => true
  | _ => false

/-- Is the operation an insertion? -/
def DemoOp.isInsert : DemoOp → Bool
  | .insert _ _ => true
  | _ => false

/-- `N` of demo.py line 5. -/
def demoN : Nat := 1000000

/-- `DELTA` of demo.py line 6.  The script's binary64 literal `0.05`
differs from 1/20 by less than 2^-56; every integer quantity the claims
mention coincides under both readings. -/
def demoDelta : ℚ := 1 / 20

/-- `int(N * (1 - DELTA))` of demo.py line 10.  In binary64 arithmetic
`1 - 0.05` rounds to the double nearest 0.95 and `1_000_000 * (1 - 0.05)`
evaluates to exactly `950000.0`, so the truncation yields 950000. -/
def demoKeyCount : Nat := 950000

/-- The sequence of table operations demo.py performs, as a function of
the key order `ks` that `random.shuffle` produced (demo.py lines 10-18):
one construction, then one insert per key.  `"val"` is modelled as the
value 0 (values are opaque to the table). -/
def demoTrace (ks : List Nat) : List DemoOp :=
  .construct demoN demoDelta :: ks.map (fun k => .insert k 0)

/-- The keys passed to `insert`, in order, over a whole trace. -/
def insertedKeys (ops : List DemoOp) : List Nat :=
  ops.filterMap (fun op => match op with | .insert k _ => some k | _ => none)

/-- Executable test for `Level.hasKey`. -/
def Level.hasKeyB (L : Level) (k : Nat) : Bool := L.slots.any (Slot.holdsKey k)

/-- Executable test for `tableHasKey`. -/
def tableHasKeyB (t : ElasticTable) (k : Nat) : Bool :=
  t.levels.any (fun L => L.hasKeyB k)

theorem scanFrom_none_iff {P : Slot → Bool} {slots : List Slot} {c : Nat} :
    ∀ {n b : Nat}, scanFrom P slots c b n = none ↔
      ∀ i, i < n → P (slots.getD ((b + i) % c) .empty) = false := by
  intro n
  induction n with
  | zero => intro b; simp [scanFrom]
  | succ n ih =>
    intro b
    rw [scanFrom]
    cases hP : P (slots.getD (b % c) .empty) with
    | true =>
      simp only [hP, if_true]
      constructor
      · intro h; exact Option.noConfusion h
      · intro h
        have := h 0 (Nat.succ_pos n)
        rw [Nat.add_zero] at this
        rw [this] at hP
        exact Bool.noConfusion hP
    | false =>
      simp only [hP, Bool.false_eq_true, if_false, Option.map_eq_none']
      rw [ih]
      constructor
      · intro h i hi
        cases i with
        | zero => rw [Nat.add_zero]; exact hP
        | succ i =>
          have := h i (by omega)
          rw [show b + 1 + i = b + (i + 1) by omega] at this
          exact this
      · intro h i hi
        have := h (i + 1) (by omega)
        rw [show b + (i + 1) = b + 1 + i by omega] at this
        exact this

theorem scanFrom_some_iff {P : Slot → Bool} {slots : List Slot} {c : Nat} :
    ∀ {n b i : Nat}, scanFrom P slots c b n = some i ↔
      i < n ∧ P (slots.getD ((b + i) % c) .empty) = true ∧
        ∀ j, j < i → P (slots.getD ((b + j) % c) .empty) = false := by
  intro n
  induction n with
  | zero => intro b i; simp [scanFrom]
  | succ n ih =>
    intro b i
    rw [scanFrom]
    cases hP : P (slots.getD (b % c) .empty) with
    | true =>
      simp only [hP, if_true]
      constructor
      · intro h
        have hi : i = 0 := by
          cases h; rfl
        subst hi
        exact ⟨Nat.succ_pos n, by rwa [Nat.add_zero], by intro j hj; omega⟩
      · intro ⟨_, _, hbefore⟩
        cases i with
        | zero => rfl
        | succ i =>
          have := hbefore 0 (Nat.succ_pos i)
          rw [Nat.add_zero] at this
          rw [this] at hP
          exact Bool.noConfusion hP
    | false =>
      simp only [hP, Bool.false_eq_true, if_false, Option.map_eq_some']
      constructor
      · intro ⟨i₀, h₀, hi₀⟩
        obtain ⟨hlt, hhit, hbefore⟩ := ih.mp h₀
        subst hi₀
        refine ⟨by omega, ?_, ?_⟩
        · rwa [show b + (i₀ + 1) = b + 1 + i₀ by omega]
        · intro j hj
          cases j with
          | zero => rw [Nat.add_zero]; exact hP
          | succ j =>
            have := hbefore j (by omega)
            rwa [show b + 1 + j = b + (j + 1) by omega] at this
      · intro ⟨hlt, hhit, hbefore⟩
        cases i with
        | zero =>
          rw [Nat.add_zero] at hhit
          rw [hhit] at hP
          exact Bool.noConfusion hP
        | succ i =>
          refine ⟨i, ih.mpr ⟨by omega, ?_, ?_⟩, rfl⟩
          · rwa [show b + 1 + i = b + (i + 1) by omega]
          · intro j hj
            have := hbefore (j + 1) (by omega)
            rwa [show b + (j + 1) = b + 1 + j by omega] at this

theorem scanFrom_isSome_of_exists {P : Slot → Bool} {slots : List Slot} {c n b : Nat}
    (h : ∃ i, i < n ∧ P (slots.getD ((b + i) % c) .empty) = true) :
    ∃ j, scanFrom P slots c b n = some j := by
  obtain ⟨i, hi, hP⟩ := h
  cases hscan : scanFrom P slots c b n with
  | some j => exact ⟨j, rfl⟩
  | none =>
    have := scanFrom_none_iff.mp hscan i hi
    rw [this] at hP
    exact Bool.noConfusion hP

theorem holdsKey_iff {k : Nat} {s : Slot} :
    Slot.holdsKey k s = true ↔ ∃ v, s = .occupied k v := by
  cases s with
  | empty => simp [Slot.holdsKey]
  | tombstone => simp [Slot.holdsKey]
  | occupied k' v =>
    simp only [Slot.holdsKey, beq_iff_eq]
    constructor
    · intro h; subst h; exact ⟨v, rfl⟩
    · intro ⟨v', hv⟩
      cases hv
      rfl

theorem isFree_eq_false_iff {s : Slot} : Slot.isFree s = false ↔ Slot.isOccupied s = true := by
  cases s <;> simp [Slot.isFree, Slot.isOccupied]

theorem isUsed_of_isOccupied {s : Slot} (h : Slot.isOccupied s = true) :
    Slot.isUsed s = true := by
  cases s <;> simp_all [Slot.isOccupied, Slot.isUsed]

theorem countP_set_add {α : Type} (P : α → Bool) :
    ∀ (l : List α) (p : Nat) (a : α), p < l.length →
      (l.set p a).countP P + (if P (l.getD p a) then 1 else 0) =
        l.countP P + (if P a then 1 else 0) := by
  intro l
  induction l with
  | nil => intro p a hp; simp at hp
  | cons x xs ih =>
    intro p a hp
    cases p with
    | zero =>
      simp only [List.set_cons_zero, List.countP_cons, List.getD_cons_zero]
      omega
    | succ p =>
      simp only [List.set_cons_succ, List.countP_cons, List.getD_cons_succ]
      have := ih p a (by simpa using hp)
      omega

theorem countP_positions (P : Slot → Bool) (l : List Slot) :
    ((Finset.range l.length).filter (fun p => P (l.getD p .empty))).card = l.countP P := by
  induction l using List.reverseRecOn with
  | nil => simp
  | append_singleton l a ih =>
    rw [List.length_append, List.length_singleton, Finset.range_succ, Finset.filter_insert,
      List.countP_append]
    have hmid : (Finset.range l.length).filter
        (fun p => P ((l ++ [a]).getD p .empty)) =
        (Finset.range l.length).filter (fun p => P (l.getD p .empty)) := by
      apply Finset.filter_congr
      intro p hp
      rw [Finset.mem_range] at hp
      rw [List.getD_append _ _ _ _ hp]
    have hlast : (l ++ [a]).getD l.length .empty = a := by
      rw [List.getD_append_right _ _ _ _ (le_refl _), Nat.sub_self]
      rfl
    rw [hlast]
    cases hPa : P a with
    | true =>
      rw [if_pos (by simp [hPa])]
      rw [Finset.card_insert_of_not_mem (by simp)]
      rw [hmid, ih]
      simp [List.countP_cons, hPa]
    | false =>
      rw [if_neg (by simp [hPa])]
      rw [hmid, ih]
      simp [List.countP_cons, hPa]

theorem nodup_length_le_countP (P : Slot → Bool) (l : List Slot) (ps : List Nat)
    (hnd : ps.Nodup) (hall : ∀ p ∈ ps, p < l.length ∧ P (l.getD p .empty) = true) :
    ps.length ≤ l.countP P := by
  have h1 : ps.length = ps.toFinset.card := (List.toFinset_card_of_nodup hnd).symm
  have h2 : ps.toFinset ⊆ (Finset.range l.length).filter (fun p => P (l.getD p .empty)) := by
    intro p hp
    rw [List.mem_toFinset] at hp
    obtain ⟨hlt, hP⟩ := hall p hp
    rw [Finset.mem_filter, Finset.mem_range]
    exact ⟨hlt, hP⟩
  calc ps.length = ps.toFinset.card := h1
    _ ≤ ((Finset.range l.length).filter (fun p => P (l.getD p .empty))).card :=
        Finset.card_le_card h2
    _ = l.countP P := countP_positions P l

theorem probe_inj {c b i j : Nat} (hi : i < c) (hj : j < c)
    (h : (b + i) % c = (b + j) % c) : i = j := by
  have hmod : i % c = j % c := Nat.ModEq.add_left_cancel' b h
  rwa [Nat.mod_eq_of_lt hi, Nat.mod_eq_of_lt hj] at hmod

theorem occupiedCount_le_currentCount (L : Level) : L.occupiedCount ≤ L.currentCount := by
  apply List.countP_mono_left
  intro s _ h
  exact isUsed_of_isOccupied h

theorem exists_free_probe (L : Level) (hWF : Level.WF L)
    (hgate : L.currentCount < L.threshold) (b : Nat) :
    ∃ i, i < L.probeLen ∧
      Slot.isFree (L.slots.getD ((b + i) % L.capacity) .empty) = true := by
  by_contra hno
  push_neg at hno
  obtain ⟨hcap, hthr, _⟩ := hWF
  have hcc : L.currentCount < L.capacity := lt_of_lt_of_le hgate hthr
  have hlen : L.probeLen ≤ L.capacity := by
    unfold Level.probeLen
    omega
  have hnd : ((List.range L.probeLen).map (fun i => (b + i) % L.capacity)).Nodup := by
    apply List.Nodup.map_on _ (List.nodup_range L.probeLen)
    intro i hi j hj hij
    rw [List.mem_range] at hi hj
    exact probe_inj (by omega) (by omega) hij
  have hall : ∀ p ∈ (List.range L.probeLen).map (fun i => (b + i) % L.capacity),
      p < L.slots.length ∧ Slot.isOccupied (L.slots.getD p .empty) = true := by
    intro p hp
    rw [List.mem_map] at hp
    obtain ⟨i, hi, hpi⟩ := hp
    rw [List.mem_range] at hi
    subst hpi
    constructor
    · exact Nat.mod_lt _ (by omega)
    · have := hno i hi
      rw [← isFree_eq_false_iff]
      cases hfree : Slot.isFree (L.slots.getD ((b + i) % L.capacity) .empty) with
      | true => exact absurd hfree this
      | false => rfl
  have hle := nodup_length_le_countP Slot.isOccupied L.slots _ hnd hall
  rw [List.length_map, List.length_range] at hle
  have hocc := occupiedCount_le_currentCount L
  unfold Level.probeLen at hle
  unfold Level.occupiedCount at hocc
  omega

theorem getD_irrel {α : Type} (l : List α) {p : Nat} (hp : p < l.length) (d d' : α) :
    l.getD p d = l.getD p d' := by
  rw [List.getD_eq_getElem _ _ hp, List.getD_eq_getElem _ _ hp]

theorem findMatch_none_iff {k b : Nat} {L : Level} :
    findMatch k b L = none ↔ ∀ i, i < L.probeLen →
      Slot.holdsKey k (L.slots.getD ((b + i) % L.capacity) .empty) = false :=
  scanFrom_none_iff

theorem findMatch_none_of_not_hasKey {k b : Nat} {L : Level} (h : ¬ L.hasKey k) :
    findMatch k b L = none := by
  rw [findMatch_none_iff]
  intro i _
  cases hs : Slot.holdsKey k (L.slots.getD ((b + i) % L.capacity) .empty) with
  | false => rfl
  | true =>
    exfalso
    obtain ⟨v, hv⟩ := holdsKey_iff.mp hs
    by_cases hc : (b + i) % L.capacity < L.capacity
    · exact h ⟨_, v, hc, hv⟩
    · have hdef : L.slots.getD ((b + i) % L.capacity) .empty = .empty :=
        List.getD_eq_default _ _ (le_of_not_lt hc)
      rw [hdef] at hv
      exact Slot.noConfusion hv

theorem findMatch_isSome_of_hasKey {h1 : Nat → Nat} {L : Level} {k : Nat}
    (hF : LevelFindable h1 L) (hk : L.hasKey k) :
    ∃ i, findMatch k (h1 k) L = some i := by
  obtain ⟨p, v, hv⟩ := hk
  obtain ⟨i, hi, hpos⟩ := hF p k v hv
  apply scanFrom_isSome_of_exists
  refine ⟨i, hi, ?_⟩
  unfold probePos at hpos
  rw [hpos, hv.2]
  simp [Slot.holdsKey]

theorem findMatch_some_holds {k b i : Nat} {L : Level} (h : findMatch k b L = some i) :
    i < L.probeLen ∧ ∃ v, holdsVal L ((b + i) % L.capacity) k v := by
  obtain ⟨hlt, hhit, _⟩ := scanFrom_some_iff.mp h
  obtain ⟨v, hv⟩ := holdsKey_iff.mp hhit
  refine ⟨hlt, v, ?_, hv⟩
  by_contra hc
  have hdef : L.slots.getD ((b + i) % L.capacity) .empty = .empty :=
    List.getD_eq_default _ _ (le_of_not_lt hc)
  rw [hdef] at hv
  exact Slot.noConfusion hv

theorem findFree_some_props {b i : Nat} {L : Level} (h : findFree b L = some i) :
    i < L.probeLen ∧ Slot.isFree (L.slots.getD ((b + i) % L.capacity) .empty) = true :=
  ⟨(scanFrom_some_iff.mp h).1, (scanFrom_some_iff.mp h).2.1⟩

theorem findFree_isSome {L : Level} (hWF : Level.WF L)
    (hgate : L.currentCount < L.threshold) (b : Nat) :
    ∃ i, findFree b L = some i :=
  scanFrom_isSome_of_exists (exists_free_probe L hWF hgate b)

theorem capacity_setSlot (L : Level) (p : Nat) (s : Slot) :
    (L.setSlot p s).capacity = L.capacity := by
  simp [Level.setSlot, Level.capacity]

theorem threshold_setSlot (L : Level) (p : Nat) (s : Slot) :
    (L.setSlot p s).threshold = L.threshold := rfl

theorem getD_setSlot_self {L : Level} {p : Nat} (hp : p < L.capacity) (s : Slot) :
    (L.setSlot p s).slots.getD p .empty = s := by
  unfold Level.setSlot
  unfold Level.capacity at hp
  rw [List.getD_eq_getElem _ _ (by rw [List.length_set]; exact hp)]
  exact List.getElem_set_self _

theorem getD_setSlot_ne {L : Level} {p q : Nat} (h : q ≠ p) (s : Slot) :
    (L.setSlot p s).slots.getD q .empty = L.slots.getD q .empty := by
  unfold Level.setSlot
  by_cases hq : q < L.slots.length
  · rw [List.getD_eq_getElem _ _ (by rw [List.length_set]; exact hq),
      List.getD_eq_getElem _ _ hq]
    exact List.getElem_set_ne (Ne.symm h) _
  · rw [List.getD_eq_default _ _ (by rw [List.length_set]; omega),
      List.getD_eq_default _ _ (by omega)]

theorem currentCount_setSlot_add {L : Level} {p : Nat} (hp : p < L.capacity) (s : Slot) :
    (L.setSlot p s).currentCount + (if Slot.isUsed (L.slots.getD p .empty) then 1 else 0) =
      L.currentCount + (if Slot.isUsed s then 1 else 0) := by
  unfold Level.capacity at hp
  have h0 := countP_set_add Slot.isUsed L.slots p s hp
  rw [getD_irrel L.slots hp s .empty] at h0
  exact h0

theorem occupiedCount_setSlot_add {L : Level} {p : Nat} (hp : p < L.capacity) (s : Slot) :
    (L.setSlot p s).occupiedCount +
        (if Slot.isOccupied (L.slots.getD p .empty) then 1 else 0) =
      L.occupiedCount + (if Slot.isOccupied s then 1 else 0) := by
  unfold Level.capacity at hp
  have h0 := countP_set_add Slot.isOccupied L.slots p s hp
  rw [getD_irrel L.slots hp s .empty] at h0
  exact h0

theorem probeLen_le_setSlot_occupied {L : Level} {p : Nat} (hp : p < L.capacity)
    (k v : Nat) : L.probeLen ≤ (L.setSlot p (.occupied k v)).probeLen := by
  unfold Level.probeLen
  have h0 := currentCount_setSlot_add hp (.occupied k v)
  cases h : Slot.isUsed (L.slots.getD p .empty) with
  | true =>
    rw [h] at h0
    simp only [Slot.isUsed, if_true] at h0
    omega
  | false =>
    rw [h] at h0
    simp only [Slot.isUsed, Bool.false_eq_true, if_false, if_true] at h0
    omega

theorem currentCount_setSlot_tombstone {L : Level} {p : Nat} (hp : p < L.capacity)
    (hocc : Slot.isOccupied (L.slots.getD p .empty) = true) :
    (L.setSlot p .tombstone).currentCount = L.currentCount := by
  have h0 := currentCount_setSlot_add hp .tombstone
  rw [isUsed_of_isOccupied hocc] at h0
  simp only [Slot.isUsed, if_true] at h0
  omega

theorem holdsVal_setSlot_iff {L : Level} {p : Nat} (hp : p < L.capacity) (s : Slot)
    {q k v : Nat} :
    holdsVal (L.setSlot p s) q k v ↔
      (q = p ∧ s = .occupied k v) ∨ (q ≠ p ∧ holdsVal L q k v) := by
  unfold holdsVal
  rw [capacity_setSlot]
  by_cases hq : q = p
  · subst hq
    rw [getD_setSlot_self hp s]
    constructor
    · intro ⟨_, h⟩; exact Or.inl ⟨rfl, h⟩
    · intro h
      cases h with
      | inl h => exact ⟨hp, h.2⟩
      | inr h => exact absurd rfl h.1
  · rw [getD_setSlot_ne hq s]
    constructor
    · intro ⟨hlt, h⟩; exact Or.inr ⟨hq, hlt, h⟩
    · intro h
      cases h with
      | inl h => exact absurd h.1 hq
      | inr h => exact ⟨h.2.1, h.2.2⟩

theorem holdsVal_setSlot_self {L : Level} {p : Nat} (hp : p < L.capacity) (k v : Nat) :
    holdsVal (L.setSlot p (.occupied k v)) p k v :=
  ⟨by rw [capacity_setSlot]; exact hp, getD_setSlot_self hp _⟩

theorem hasKey_setSlot_occupied_iff {L : Level} {p : Nat} (hp : p < L.capacity)
    (k v k'' : Nat) :
    (L.setSlot p (.occupied k v)).hasKey k'' ↔
      k'' = k ∨ ∃ q v', q ≠ p ∧ holdsVal L q k'' v' := by
  unfold Level.hasKey
  constructor
  · intro ⟨q, v', hv⟩
    rcases (holdsVal_setSlot_iff hp _).mp hv with ⟨_, h⟩ | ⟨hne, h⟩
    · cases h; exact Or.inl rfl
    · exact Or.inr ⟨q, v', hne, h⟩
  · intro h
    rcases h with rfl | ⟨q, v', hne, h⟩
    · exact ⟨p, v, holdsVal_setSlot_self hp k'' v⟩
    · exact ⟨q, v', (holdsVal_setSlot_iff hp _).mpr (Or.inr ⟨hne, h⟩)⟩

theorem hasKey_setSlot_tombstone_iff {L : Level} {p : Nat} (hp : p < L.capacity)
    (k'' : Nat) :
    (L.setSlot p .tombstone).hasKey k'' ↔ ∃ q v', q ≠ p ∧ holdsVal L q k'' v' := by
  unfold Level.hasKey
  constructor
  · intro ⟨q, v', hv⟩
    rcases (holdsVal_setSlot_iff hp _).mp hv with ⟨_, h⟩ | ⟨hne, h⟩
    · exact Slot.noConfusion h
    · exact ⟨q, v', hne, h⟩
  · intro ⟨q, v', hne, h⟩
    exact ⟨q, v', (holdsVal_setSlot_iff hp _).mpr (Or.inr ⟨hne, h⟩)⟩

theorem hasKey_of_holdsVal {L : Level} {p k v : Nat} (h : holdsVal L p k v) :
    L.hasKey k := ⟨p, v, h⟩

theorem passed_level_closed {b : Nat} {L : Level} (hWF : Level.WF L)
    (h : L.threshold ≤ L.currentCount ∨ findFree b L = none) :
    L.threshold ≤ L.currentCount := by
  cases h with
  | inl h => exact h
  | inr h =>
    by_contra hlt
    push_neg at hlt
    obtain ⟨i, hi⟩ := findFree_isSome hWF hlt b
    rw [h] at hi
    exact Option.noConfusion hi

theorem insertGo_error_iff {h1 : Nat → Nat} {k v : Nat} :
    ∀ {ls : List Level} {e : TableError}, insertGo h1 k v ls = .error e ↔
      e = .tableFull ∧ ∀ L ∈ ls, findMatch k (h1 k) L = none ∧
        (L.threshold ≤ L.currentCount ∨ findFree (h1 k) L = none) := by
  intro ls
  induction ls with
  | nil =>
    intro e
    constructor
    · intro h
      simp only [insertGo] at h
      injection h with h
      exact ⟨h.symm, by intro L hL; exact absurd hL (List.not_mem_nil L)⟩
    · intro ⟨he, _⟩
      subst he
      rfl
  | cons L rest ih =>
    intro e
    cases hm : findMatch k (h1 k) L with
    | some i =>
      simp only [insertGo, hm]
      constructor
      · intro h; exact Except.noConfusion h
      · intro ⟨_, hall⟩
        have h0 := (hall L (List.mem_cons_self L rest)).1
        rw [hm] at h0
        exact Option.noConfusion h0
    | none =>
      by_cases hgate : L.currentCount < L.threshold
      · cases hf : findFree (h1 k) L with
        | some i =>
          simp only [insertGo, hm, if_pos hgate, hf]
          constructor
          · intro h; exact Except.noConfusion h
          · intro ⟨_, hall⟩
            have h0 := (hall L (List.mem_cons_self L rest)).2
            cases h0 with
            | inl h0 => omega
            | inr h0 => rw [hf] at h0; exact Option.noConfusion h0
        | none =>
          simp only [insertGo, hm, if_pos hgate, hf]
          cases hrec : insertGo h1 k v rest with
          | ok pr =>
            obtain ⟨p₀, rest₀⟩ := pr
            simp only [hrec]
            constructor
            · intro h; exact Except.noConfusion h
            · intro ⟨he, hall⟩
              have h0 : insertGo h1 k v rest = .error TableError.tableFull :=
                ih.mpr ⟨rfl, fun M hM => hall M (List.mem_cons_of_mem L hM)⟩
              rw [hrec] at h0
              exact Except.noConfusion h0
          | error e₀ =>
            simp only [hrec]
            constructor
            · intro h
              injection h with h
              subst h
              obtain ⟨he, hall⟩ := ih.mp hrec
              refine ⟨he, ?_⟩
              intro M hM
              rcases List.mem_cons.mp hM with rfl | hM
              · exact ⟨hm, Or.inr hf⟩
              · exact hall M hM
            · intro ⟨he, hall⟩
              subst he
              have h0 : insertGo h1 k v rest = .error TableError.tableFull :=
                ih.mpr ⟨rfl, fun M hM => hall M (List.mem_cons_of_mem L hM)⟩
              rw [hrec] at h0
              injection h0 with h0
              rw [h0]
      · simp only [insertGo, hm, if_neg hgate]
        cases hrec : insertGo h1 k v rest with
        | ok pr =>
          obtain ⟨p₀, rest₀⟩ := pr
          simp only [hrec]
          constructor
          · intro h; exact Except.noConfusion h
          · intro ⟨he, hall⟩
            have h0 : insertGo h1 k v rest = .error TableError.tableFull :=
              ih.mpr ⟨rfl, fun M hM => hall M (List.mem_cons_of_mem L hM)⟩
            rw [hrec] at h0
            exact Except.noConfusion h0
        | error e₀ =>
          simp only [hrec]
          constructor
          · intro h
            injection h with h
            subst h
            obtain ⟨he, hall⟩ := ih.mp hrec
            refine ⟨he, ?_⟩
            intro M hM
            rcases List.mem_cons.mp hM with rfl | hM
            · exact ⟨hm, Or.inl (le_of_not_lt hgate)⟩
            · exact hall M hM
          · intro ⟨he, hall⟩
            subst he
            have h0 : insertGo h1 k v rest = .error TableError.tableFull :=
              ih.mpr ⟨rfl, fun M hM => hall M (List.mem_cons_of_mem L hM)⟩
            rw [hrec] at h0
            injection h0 with h0
            rw [h0]

theorem insertGo_ok_elim {h1 : Nat → Nat} {k v : Nat} :
    ∀ {ls : List Level} {p : Nat} {ls' : List Level},
      insertGo h1 k v ls = .ok (p, ls') →
      ∃ pre L post i,
        ls = pre ++ L :: post ∧
        (∀ M ∈ pre, findMatch k (h1 k) M = none ∧
          (M.threshold ≤ M.currentCount ∨ findFree (h1 k) M = none)) ∧
        p = (pre.map Level.probeLen).sum + i + 1 ∧
        ls' = pre ++ L.setSlot (probePos (h1 k) i L.capacity) (.occupied k v) :: post ∧
        (findMatch k (h1 k) L = some i ∨
          (findMatch k (h1 k) L = none ∧ L.currentCount < L.threshold ∧
            findFree (h1 k) L = some i)) := by
  intro ls
  induction ls with
  | nil =>
    intro p ls' h
    simp only [insertGo] at h
    exact Except.noConfusion h
  | cons L rest ih =>
    intro p ls' h
    cases hm : findMatch k (h1 k) L with
    | some i =>
      simp only [insertGo, hm] at h
      injection h with h
      injection h with hp hls
      refine ⟨[], L, rest, i, by simp, by simp, by simp [hp.symm], by simp [hls.symm], Or.inl hm⟩
    | none =>
      by_cases hgate : L.currentCount < L.threshold
      · cases hf : findFree (h1 k) L with
        | some i =>
          simp only [insertGo, hm, if_pos hgate, hf] at h
          injection h with h
          injection h with hp hls
          exact ⟨[], L, rest, i, by simp, by simp, by simp [hp.symm], by simp [hls.symm],
            Or.inr ⟨hm, hgate, hf⟩⟩
        | none =>
          simp only [insertGo, hm, if_pos hgate, hf] at h
          cases hrec : insertGo h1 k v rest with
          | ok pr =>
            obtain ⟨p₀, rest₀⟩ := pr
            rw [hrec] at h
            injection h with h
            injection h with hp hls
            obtain ⟨pre₀, L₀, post₀, i₀, hsplit, hpass, hp₀, hls₀, hcase⟩ := ih hrec
            refine ⟨L :: pre₀, L₀, post₀, i₀, ?_, ?_, ?_, ?_, hcase⟩
            · rw [hsplit]; rfl
            · intro M hM
              rcases List.mem_cons.mp hM with rfl | hM
              · exact ⟨hm, Or.inr hf⟩
              · exact hpass M hM
            · rw [← hp]
              simp only [List.map_cons, List.sum_cons]
              omega
            · rw [← hls, hls₀]; rfl
          | error e₀ =>
            rw [hrec] at h
            exact Except.noConfusion h
      · simp only [insertGo, hm, if_neg hgate] at h
        cases hrec : insertGo h1 k v rest with
        | ok pr =>
          obtain ⟨p₀, rest₀⟩ := pr
          rw [hrec] at h
          injection h with h
          injection h with hp hls
          obtain ⟨pre₀, L₀, post₀, i₀, hsplit, hpass, hp₀, hls₀, hcase⟩ := ih hrec
          refine ⟨L :: pre₀, L₀, post₀, i₀, ?_, ?_, ?_, ?_, hcase⟩
          · rw [hsplit]; rfl
          · intro M hM
            rcases List.mem_cons.mp hM with rfl | hM
            · exact ⟨hm, Or.inl (le_of_not_lt hgate)⟩
            · exact hpass M hM
          · rw [← hp]
            simp only [List.map_cons, List.sum_cons]
            omega
          · rw [← hls, hls₀]; rfl
        | error e₀ =>
          rw [hrec] at h
          exact Except.noConfusion h

theorem insertGo_ok_of_hasKey {h1 : Nat → Nat} {k v : Nat} :
    ∀ {ls : List Level}, (∀ L ∈ ls, Level.WF L ∧ LevelFindable h1 L) →
      ls.Pairwise StackClosed → (∃ L ∈ ls, L.hasKey k) →
      ∃ p ls', insertGo h1 k v ls = .ok (p, ls') := by
  intro ls
  induction ls with
  | nil =>
    intro _ _ hex
    obtain ⟨L, hL, _⟩ := hex
    exact absurd hL (List.not_mem_nil L)
  | cons L rest ih =>
    intro hwf hstack hex
    by_cases hkL : L.hasKey k
    · obtain ⟨i, hi⟩ := findMatch_isSome_of_hasKey
        (hwf L (List.mem_cons_self L rest)).2 hkL
      exact ⟨i + 1, L.setSlot (probePos (h1 k) i L.capacity) (.occupied k v) :: rest,
        by simp only [insertGo, hi]⟩
    · have hm : findMatch k (h1 k) L = none := findMatch_none_of_not_hasKey hkL
      obtain ⟨L₀, hL₀, hkey₀⟩ := hex
      rcases List.mem_cons.mp hL₀ with rfl | hL₀
      · exact absurd hkey₀ hkL
      · have hclosed : L.threshold ≤ L.currentCount :=
          (List.pairwise_cons.mp hstack).1 L₀ hL₀ ⟨k, hkey₀⟩
        obtain ⟨p₀, rest₀, hrec⟩ := ih (fun M hM => hwf M (List.mem_cons_of_mem L hM))
          (List.pairwise_cons.mp hstack).2 ⟨L₀, hL₀, hkey₀⟩
        have hng : ¬ L.currentCount < L.threshold := by omega
        refine ⟨L.probeLen + p₀, L :: rest₀, ?_⟩
        simp only [insertGo, hm, if_neg hng, hrec]

theorem insertGo_ok_of_gate {h1 : Nat → Nat} {k v : Nat} :
    ∀ {ls : List Level}, (∀ L ∈ ls, Level.WF L) →
      (∀ L ∈ ls, ¬ L.hasKey k) → (∃ L ∈ ls, L.currentCount < L.threshold) →
      ∃ p ls', insertGo h1 k v ls = .ok (p, ls') := by
  intro ls
  induction ls with
  | nil =>
    intro _ _ hex
    obtain ⟨L, hL, _⟩ := hex
    exact absurd hL (List.not_mem_nil L)
  | cons L rest ih =>
    intro hwf hnk hex
    have hm : findMatch k (h1 k) L = none :=
      findMatch_none_of_not_hasKey (hnk L (List.mem_cons_self L rest))
    by_cases hgate : L.currentCount < L.threshold
    · obtain ⟨i, hi⟩ := findFree_isSome (hwf L (List.mem_cons_self L rest)) hgate (h1 k)
      exact ⟨i + 1, L.setSlot (probePos (h1 k) i L.capacity) (.occupied k v) :: rest,
        by simp only [insertGo, hm, if_pos hgate, hi]⟩
    · obtain ⟨L₀, hL₀, hgate₀⟩ := hex
      rcases List.mem_cons.mp hL₀ with rfl | hL₀
      · exact absurd hgate₀ hgate
      · obtain ⟨p₀, rest₀, hrec⟩ := ih (fun M hM => hwf M (List.mem_cons_of_mem L hM))
          (fun M hM => hnk M (List.mem_cons_of_mem L hM)) ⟨L₀, hL₀, hgate₀⟩
        refine ⟨L.probeLen + p₀, L :: rest₀, ?_⟩
        simp only [insertGo, hm, if_neg hgate, hrec]

theorem lookupGo_none {h1 : Nat → Nat} {k : Nat} :
    ∀ {ls : List Level}, (∀ M ∈ ls, ¬ M.hasKey k) → lookupGo h1 k ls = none := by
  intro ls
  induction ls with
  | nil => intro _; rfl
  | cons M rest ih =>
    intro hno
    have hm : findMatch k (h1 k) M = none :=
      findMatch_none_of_not_hasKey (hno M (List.mem_cons_self M rest))
    simp only [lookupGo, hm]
    exact ih (fun M₀ hM₀ => hno M₀ (List.mem_cons_of_mem M hM₀))

theorem lookupGo_append_some {h1 : Nat → Nat} {k v : Nat} {L : Level} {q : Nat}
    (hU : LevelUnique L) (hF : LevelFindable h1 L) (hv : holdsVal L q k v) :
    ∀ {pre : List Level}, (∀ M ∈ pre, ¬ M.hasKey k) →
      ∀ (post : List Level), lookupGo h1 k (pre ++ L :: post) = some v := by
  intro pre
  induction pre with
  | nil =>
    intro _ post
    obtain ⟨i, hi⟩ := findMatch_isSome_of_hasKey hF (hasKey_of_holdsVal hv)
    obtain ⟨_, v₀, hv₀⟩ := findMatch_some_holds hi
    obtain ⟨hq, hval⟩ := hU q _ k v v₀ hv hv₀
    simp only [List.nil_append, lookupGo, hi]
    have hpos : probePos (h1 k) i L.capacity = (h1 k + i) % L.capacity := rfl
    rw [hpos, hv₀.2, hval]
  | cons M pre ih =>
    intro hno post
    have hm : findMatch k (h1 k) M = none :=
      findMatch_none_of_not_hasKey (hno M (List.mem_cons_self M pre))
    simp only [List.cons_append, lookupGo, hm]
    exact ih (fun M₀ hM₀ => hno M₀ (List.mem_cons_of_mem M hM₀)) post

theorem insert_ok_iff {h1 : Nat → Nat} {t : ElasticTable} {k v p : Nat}
    {t' : ElasticTable} :
    insert h1 t k v = .ok (p, t') ↔ insertGo h1 k v t.levels = .ok (p, t'.levels) := by
  unfold insert
  cases hGo : insertGo h1 k v t.levels with
  | ok pr =>
    obtain ⟨p₀, ls₀⟩ := pr
    constructor
    · intro h
      injection h with h
      injection h with hp hT
      rw [hp, ← hT]
    · intro h
      injection h with h
      injection h with hp hT
      rw [hp]
      cases t'
      cases hT
      rfl
  | error e =>
    constructor
    · intro h; exact Except.noConfusion h
    · intro h; exact Except.noConfusion h

theorem insert_error_iff {h1 : Nat → Nat} {t : ElasticTable} {k v : Nat}
    {e : TableError} :
    insert h1 t k v = .error e ↔ insertGo h1 k v t.levels = .error e := by
  unfold insert
  cases hGo : insertGo h1 k v t.levels with
  | ok pr =>
    obtain ⟨p₀, ls₀⟩ := pr
    constructor
    · intro h; exact Except.noConfusion h
    · intro h; exact Except.noConfusion h
  | error e₀ =>
    constructor
    · intro h; injection h with h; rw [h]
    · intro h; injection h with h; rw [h]

theorem insertGo_ok_probe_le {h1 : Nat → Nat} {k v : Nat} {ls : List Level} {p : Nat}
    {ls' : List Level} (h : insertGo h1 k v ls = .ok (p, ls')) :
    p ≤ (ls.map Level.probeLen).sum := by
  obtain ⟨pre, L, post, i, hsplit, _, hp, _, hcase⟩ := insertGo_ok_elim h
  have hi : i < L.probeLen := by
    cases hcase with
    | inl h₀ => exact (findMatch_some_holds h₀).1
    | inr h₀ => exact (findFree_some_props h₀.2.2).1
  rw [hsplit]
  simp only [List.map_append, List.sum_append, List.map_cons, List.sum_cons]
  omega

theorem insertGo_ok_probe_pos {h1 : Nat → Nat} {k v : Nat} {ls : List Level} {p : Nat}
    {ls' : List Level} (h : insertGo h1 k v ls = .ok (p, ls')) : 1 ≤ p := by
  obtain ⟨pre, L, post, i, _, _, hp, _, _⟩ := insertGo_ok_elim h
  omega

theorem not_hasKey_of_findMatch_none {h1 : Nat → Nat} {L : Level} {k : Nat}
    (hF : LevelFindable h1 L) (hm : findMatch k (h1 k) L = none) : ¬ L.hasKey k := by
  intro hk
  obtain ⟨i, hi⟩ := findMatch_isSome_of_hasKey hF hk
  rw [hm] at hi
  exact Option.noConfusion hi

theorem currentCount_le_setSlot_occupied {L : Level} {p : Nat} (hp : p < L.capacity)
    (k v : Nat) : L.currentCount ≤ (L.setSlot p (.occupied k v)).currentCount := by
  have h0 := probeLen_le_setSlot_occupied hp k v
  unfold Level.probeLen at h0
  omega

theorem insert_ok_core {h1 : Nat → Nat} {t : ElasticTable} {k v p : Nat}
    {t' : ElasticTable} (hInv : Inv h1 t) (h : insert h1 t k v = .ok (p, t')) :
    ∃ pre L post i pos,
      t.levels = pre ++ L :: post ∧
      t'.levels = pre ++ L.setSlot pos (.occupied k v) :: post ∧
      probePos (h1 k) i L.capacity = pos ∧
      pos < L.capacity ∧ i < L.probeLen ∧
      (∀ M ∈ pre, ¬ M.hasKey k ∧ M.threshold ≤ M.currentCount) ∧
      ((∃ v₀, holdsVal L pos k v₀) ∨
        (¬ L.hasKey k ∧ L.currentCount < L.threshold ∧
          Slot.isFree (L.slots.getD pos .empty) = true ∧
          ∀ M ∈ post, ∀ kk, ¬ M.hasKey kk)) := by
  obtain ⟨hmem, hdisj, hstack⟩ := hInv
  have hGo := insert_ok_iff.mp h
  obtain ⟨pre, L, post, i, hsplit, hpass, hp, hls, hcase⟩ := insertGo_ok_elim hGo
  have hLmem : L ∈ t.levels := by
    rw [hsplit]; exact List.mem_append_right _ (List.mem_cons_self _ _)
  have hWFL := (hmem L hLmem).1
  have hFL := (hmem L hLmem).2.2
  have hposLt : probePos (h1 k) i L.capacity < L.capacity :=
    Nat.mod_lt _ (by have := hWFL.1; omega)
  have hpre : ∀ M ∈ pre, ¬ M.hasKey k ∧ M.threshold ≤ M.currentCount := by
    intro M hM
    have hMmem : M ∈ t.levels := by rw [hsplit]; exact List.mem_append_left _ hM
    obtain ⟨hm, hrest⟩ := hpass M hM
    exact ⟨not_hasKey_of_findMatch_none (hmem M hMmem).2.2 hm,
      passed_level_closed (hmem M hMmem).1 hrest⟩
  refine ⟨pre, L, post, i, probePos (h1 k) i L.capacity, hsplit, hls, rfl, hposLt, ?_,
    hpre, ?_⟩
  · cases hcase with
    | inl h₀ => exact (findMatch_some_holds h₀).1
    | inr h₀ => exact (findFree_some_props h₀.2.2).1
  · cases hcase with
    | inl h₀ =>
      obtain ⟨_, v₀, hv₀⟩ := findMatch_some_holds h₀
      exact Or.inl ⟨v₀, hv₀⟩
    | inr h₀ =>
      obtain ⟨hm, hgate, hf⟩ := h₀
      have hnk : ¬ L.hasKey k := not_hasKey_of_findMatch_none hFL hm
      have hfree := (findFree_some_props hf).2
      refine Or.inr ⟨hnk, hgate, hfree, ?_⟩
      intro M hM kk hMk
      rw [hsplit] at hstack
      rcases List.pairwise_append.mp hstack with ⟨_, hsC, _⟩
      rcases List.pairwise_cons.mp hsC with ⟨hsLpost, _⟩
      have := hsLpost M hM ⟨kk, hMk⟩
      omega

theorem insert_ok_spec {h1 : Nat → Nat} {t : ElasticTable} {k v p : Nat}
    {t' : ElasticTable} (hInv : Inv h1 t) (h : insert h1 t k v = .ok (p, t')) :
    Inv h1 t' ∧ SameShape t t' ∧ lookup h1 t' k = some v ∧
      (∀ kk, tableHasKey t' kk ↔ (kk = k ∨ tableHasKey t kk)) ∧
      (tableHasKey t k → size t' = size t) ∧
      (¬ tableHasKey t k → size t' = size t + 1) ∧
      (NoTomb t → NoTomb t') := by
  obtain ⟨pre, L, post, i, pos, hsplit, hsplit', hposEq, hposLt, hiLt, hpreF, hcase⟩ :=
    insert_ok_core hInv h
  obtain ⟨hmem, hdisj, hstack⟩ := hInv
  have hLmem : L ∈ t.levels := by
    rw [hsplit]; exact List.mem_append_right _ (List.mem_cons_self _ _)
  have hWFL := (hmem L hLmem).1
  have hUL := (hmem L hLmem).2.1
  have hFL := (hmem L hLmem).2.2
  have hold' : holdsVal (L.setSlot pos (.occupied k v)) pos k v :=
    holdsVal_setSlot_self hposLt k v
  have hccmono : L.currentCount ≤ (L.setSlot pos (.occupied k v)).currentCount :=
    currentCount_le_setSlot_occupied hposLt k v
  have hplmono : L.probeLen ≤ (L.setSlot pos (.occupied k v)).probeLen :=
    probeLen_le_setSlot_occupied hposLt k v
  have hnodup : ∀ q vv, q ≠ pos → ¬ holdsVal L q k vv := by
    intro q vv hne hold
    rcases hcase with ⟨v₀, hv₀⟩ | ⟨hnk, _, _, _⟩
    · exact hne (hUL q pos k vv v₀ hold hv₀).1
    · exact hnk ⟨q, vv, hold⟩
  rw [hsplit] at hdisj hstack
  rcases List.pairwise_append.mp hdisj with ⟨hdP, hdC, hdX⟩
  rcases List.pairwise_cons.mp hdC with ⟨hdLpost, hdPost⟩
  rcases List.pairwise_append.mp hstack with ⟨hsP, hsC, hsX⟩
  rcases List.pairwise_cons.mp hsC with ⟨hsLpost, hsPost⟩
  have hWF' : Level.WF (L.setSlot pos (.occupied k v)) := by
    refine ⟨?_, ?_, ?_⟩
    · rw [capacity_setSlot]; exact hWFL.1
    · rw [capacity_setSlot, threshold_setSlot]; exact hWFL.2.1
    · rw [threshold_setSlot]
      have hadd := currentCount_setSlot_add hposLt (.occupied k v)
      have h22 := hWFL.2.2
      rcases hcase with ⟨v₀, hv₀⟩ | ⟨_, hgate, hfree, _⟩
      · rw [hv₀.2] at hadd
        simp only [Slot.isUsed, if_true] at hadd
        omega
      · cases hslot : L.slots.getD pos .empty with
        | empty =>
          rw [hslot] at hadd
          simp only [Slot.isUsed, Bool.false_eq_true, if_false, if_true] at hadd
          omega
        | occupied kk vv =>
          rw [hslot] at hfree
          simp [Slot.isFree] at hfree
        | tombstone =>
          rw [hslot] at hadd
          simp only [Slot.isUsed, if_true] at hadd
          omega
  have hU' : LevelUnique (L.setSlot pos (.occupied k v)) := by
    intro q q' kk vv vv' hq hq'
    rcases (holdsVal_setSlot_iff hposLt _).mp hq with ⟨hq1, hs⟩ | ⟨hne, hold⟩
    · rcases (holdsVal_setSlot_iff hposLt _).mp hq' with ⟨hq1', hs'⟩ | ⟨hne', hold'₀⟩
      · cases hs
        cases hs'
        exact ⟨hq1.trans hq1'.symm, rfl⟩
      · cases hs
        exact absurd hold'₀ (hnodup q' vv' hne')
    · rcases (holdsVal_setSlot_iff hposLt _).mp hq' with ⟨hq1', hs'⟩ | ⟨hne', hold'₀⟩
      · cases hs'
        exact absurd hold (hnodup q vv hne)
      · exact hUL q q' kk vv vv' hold hold'₀
  have hF' : LevelFindable h1 (L.setSlot pos (.occupied k v)) := by
    intro q kk vv hq
    rcases (holdsVal_setSlot_iff hposLt _).mp hq with ⟨rfl, hs⟩ | ⟨hne, hold⟩
    · cases hs
      refine ⟨i, lt_of_lt_of_le hiLt hplmono, ?_⟩
      rw [capacity_setSlot]
      exact hposEq
    · obtain ⟨j, hj, hjpos⟩ := hFL q kk vv hold
      refine ⟨j, lt_of_lt_of_le hj hplmono, ?_⟩
      rw [capacity_setSlot]
      exact hjpos
  have hKfwd : ∀ kk, (L.setSlot pos (.occupied k v)).hasKey kk → kk = k ∨ L.hasKey kk := by
    intro kk hkk
    rcases (hasKey_setSlot_occupied_iff hposLt k v kk).mp hkk with rfl | ⟨q, vq, _, holdq⟩
    · exact Or.inl rfl
    · exact Or.inr ⟨q, vq, holdq⟩
  have hKbwd : ∀ kk, L.hasKey kk → (L.setSlot pos (.occupied k v)).hasKey kk := by
    intro kk hkk
    obtain ⟨q, vq, hq⟩ := hkk
    by_cases hqpos : q = pos
    · subst hqpos
      rcases hcase with ⟨v₀, hv₀⟩ | ⟨_, _, hfree, _⟩
      · have hkkk : kk = k := by
          have h3 := hv₀.2.symm.trans hq.2
          injection h3 with h4 h5
          exact h4.symm
        subst hkkk
        exact ⟨q, v, hold'⟩
      · rw [hq.2] at hfree
        simp [Slot.isFree] at hfree
    · exact ⟨q, vq, (holdsVal_setSlot_iff hposLt _).mpr (Or.inr ⟨hqpos, hq⟩)⟩
  refine ⟨?_, ?_, ?_, ?_, ?_, ?_, ?_⟩
  · -- Inv t'
    refine ⟨?_, ?_, ?_⟩
    · intro M hM
      rw [hsplit'] at hM
      rcases List.mem_append.mp hM with hMpre | hMc
      · exact hmem M (by rw [hsplit]; exact List.mem_append_left _ hMpre)
      rcases List.mem_cons.mp hMc with rfl | hMpost
      · exact ⟨hWF', hU', hF'⟩
      · exact hmem M
          (by rw [hsplit]; exact List.mem_append_right _ (List.mem_cons_of_mem _ hMpost))
    · rw [hsplit']
      apply List.pairwise_append.mpr
      refine ⟨hdP, ?_, ?_⟩
      · apply List.pairwise_cons.mpr
        refine ⟨?_, hdPost⟩
        intro M hM kk hkk
        rcases hKfwd kk hkk with rfl | hLkk
        · rcases hcase with ⟨v₀, hv₀⟩ | ⟨_, _, _, hpostE⟩
          · exact hdLpost M hM kk ⟨pos, v₀, hv₀⟩
          · exact hpostE M hM kk
        · exact hdLpost M hM kk hLkk
      · intro a ha b hb
        rcases List.mem_cons.mp hb with rfl | hbpost
        · intro kk hak hbk
          rcases hKfwd kk hbk with rfl | hLkk
          · exact (hpreF a ha).1 hak
          · exact hdX a ha L (List.mem_cons_self _ _) kk hak hLkk
        · exact hdX a ha b (List.mem_cons_of_mem _ hbpost)
    · rw [hsplit']
      apply List.pairwise_append.mpr
      refine ⟨hsP, ?_, ?_⟩
      · apply List.pairwise_cons.mpr
        refine ⟨?_, hsPost⟩
        intro M hM hMkeys
        rw [threshold_setSlot]
        rcases hcase with ⟨v₀, hv₀⟩ | ⟨_, _, _, hpostE⟩
        · have := hsLpost M hM hMkeys
          omega
        · obtain ⟨kk, hkk⟩ := hMkeys
          exact absurd hkk (hpostE M hM kk)
      · intro a ha b hb
        intro _
        exact (hpreF a ha).2
  · -- SameShape
    constructor
    · rw [hsplit, hsplit']
      simp [List.map_append, capacity_setSlot]
    · rw [hsplit, hsplit']
      simp [List.map_append, threshold_setSlot]
  · -- lookup
    unfold lookup
    rw [hsplit']
    exact lookupGo_append_some hU' hF' hold' (fun M hM => (hpreF M hM).1) post
  · -- tableHasKey iff
    intro kk
    constructor
    · intro ⟨M, hM, hMk⟩
      rw [hsplit'] at hM
      rcases List.mem_append.mp hM with hMpre | hMc
      · exact Or.inr ⟨M, by rw [hsplit]; exact List.mem_append_left _ hMpre, hMk⟩
      rcases List.mem_cons.mp hMc with rfl | hMpost
      · rcases hKfwd kk hMk with rfl | hLkk
        · exact Or.inl rfl
        · exact Or.inr ⟨L, hLmem, hLkk⟩
      · exact Or.inr ⟨M,
          by rw [hsplit]; exact List.mem_append_right _ (List.mem_cons_of_mem _ hMpost), hMk⟩
    · intro hor
      rcases hor with rfl | ⟨M, hM, hMk⟩
      · exact ⟨L.setSlot pos (.occupied kk v),
          by rw [hsplit']; exact List.mem_append_right _ (List.mem_cons_self _ _),
          hasKey_of_holdsVal hold'⟩
      · rw [hsplit] at hM
        rcases List.mem_append.mp hM with hMpre | hMc
        · exact ⟨M, by rw [hsplit']; exact List.mem_append_left _ hMpre, hMk⟩
        rcases List.mem_cons.mp hMc with hML | hMpost
        · exact ⟨L.setSlot pos (.occupied k v),
            by rw [hsplit']; exact List.mem_append_right _ (List.mem_cons_self _ _),
            hKbwd kk (hML ▸ hMk)⟩
        · exact ⟨M,
            by rw [hsplit']; exact List.mem_append_right _ (List.mem_cons_of_mem _ hMpost),
            hMk⟩
  · -- update keeps size
    intro hHas
    have hocc := occupiedCount_setSlot_add hposLt (.occupied k v)
    rcases hcase with ⟨v₀, hv₀⟩ | ⟨hnkL, _, _, hpostE⟩
    · rw [hv₀.2] at hocc
      simp only [Slot.isOccupied, if_true] at hocc
      rw [size, size, hsplit, hsplit']
      simp only [List.map_append, List.sum_append, List.map_cons, List.sum_cons]
      omega
    · exfalso
      obtain ⟨M, hM, hMk⟩ := hHas
      rw [hsplit] at hM
      rcases List.mem_append.mp hM with hMpre | hMc
      · exact (hpreF M hMpre).1 hMk
      rcases List.mem_cons.mp hMc with rfl | hMpost
      · exact hnkL hMk
      · exact hpostE M hMpost k hMk
  · -- fresh insert grows size by one
    intro hNot
    have hocc := occupiedCount_setSlot_add hposLt (.occupied k v)
    rcases hcase with ⟨v₀, hv₀⟩ | ⟨hnkL, _, hfree, _⟩
    · exact absurd ⟨L, hLmem, ⟨pos, v₀, hv₀⟩⟩ hNot
    · have hnotocc : Slot.isOccupied (L.slots.getD pos .empty) = false := by
        cases hslot : L.slots.getD pos .empty with
        | empty => rfl
        | occupied kk vv => rw [hslot] at hfree; simp [Slot.isFree] at hfree
        | tombstone => rfl
      rw [hnotocc] at hocc
      simp only [Slot.isOccupied, Bool.false_eq_true, if_false, if_true] at hocc
      rw [size, size, hsplit, hsplit']
      simp only [List.map_append, List.sum_append, List.map_cons, List.sum_cons]
      omega
  · -- no tombstones appear
    intro hNT M hM
    rw [hsplit'] at hM
    rcases List.mem_append.mp hM with hMpre | hMc
    · exact hNT M (by rw [hsplit]; exact List.mem_append_left _ hMpre)
    rcases List.mem_cons.mp hMc with rfl | hMpost
    · intro htomb
      rcases List.mem_or_eq_of_mem_set htomb with h₀ | h₀
      · exact hNT L hLmem h₀
      · exact Slot.noConfusion h₀
    · exact hNT M
        (by rw [hsplit]; exact List.mem_append_right _ (List.mem_cons_of_mem _ hMpost))

theorem insert_ok_of_hasKey {h1 : Nat → Nat} {t : ElasticTable} {k : Nat} (v : Nat)
    (hInv : Inv h1 t) (hk : tableHasKey t k) :
    ∃ p t', insert h1 t k v = .ok (p, t') := by
  obtain ⟨hmem, _, hstack⟩ := hInv
  obtain ⟨p, ls', hGo⟩ := insertGo_ok_of_hasKey
    (fun L hL => ⟨(hmem L hL).1, (hmem L hL).2.2⟩) hstack hk
  exact ⟨p, ⟨ls'⟩, insert_ok_iff.mpr hGo⟩

theorem insert_ok_of_gate {h1 : Nat → Nat} {t : ElasticTable} {k : Nat} (v : Nat)
    (hInv : Inv h1 t) (hnk : ¬ tableHasKey t k)
    (hgate : ∃ L ∈ t.levels, L.currentCount < L.threshold) :
    ∃ p t', insert h1 t k v = .ok (p, t') := by
  obtain ⟨hmem, _, _⟩ := hInv
  obtain ⟨p, ls', hGo⟩ := insertGo_ok_of_gate (fun L hL => (hmem L hL).1)
    (fun L hL hk => hnk ⟨L, hL, hk⟩) hgate
  exact ⟨p, ⟨ls'⟩, insert_ok_iff.mpr hGo⟩

theorem insert_error_char {h1 : Nat → Nat} {t : ElasticTable} {k v : Nat}
    (hInv : Inv h1 t) :
    insert h1 t k v = .error .tableFull ↔
      (¬ tableHasKey t k ∧ ∀ L ∈ t.levels, L.threshold ≤ L.currentCount) := by
  obtain ⟨hmem, hdisj, hstack⟩ := hInv
  constructor
  · intro h
    obtain ⟨_, hall⟩ := insertGo_error_iff.mp (insert_error_iff.mp h)
    constructor
    · intro ⟨L, hL, hk⟩
      exact not_hasKey_of_findMatch_none (hmem L hL).2.2 (hall L hL).1 hk
    · intro L hL
      exact passed_level_closed (hmem L hL).1 (hall L hL).2
  · intro ⟨hnk, hclosed⟩
    cases hres : insert h1 t k v with
    | ok pr =>
      exfalso
      obtain ⟨p, t'⟩ := pr
      obtain ⟨pre, L, post, i, pos, hsplit, _, _, _, _, _, hcase⟩ :=
        insert_ok_core ⟨hmem, hdisj, hstack⟩ hres
      have hLmem : L ∈ t.levels := by
        rw [hsplit]; exact List.mem_append_right _ (List.mem_cons_self _ _)
      rcases hcase with ⟨v₀, hv₀⟩ | ⟨_, hgate, _, _⟩
      · exact hnk ⟨L, hLmem, ⟨pos, v₀, hv₀⟩⟩
      · have := hclosed L hLmem
        omega
    | error e =>
      have he := (insertGo_error_iff.mp (insert_error_iff.mp hres)).1
      rw [he]

theorem deleteGo_elim {h1 : Nat → Nat} {k : Nat} :
    ∀ {ls : List Level} {b : Bool} {ls' : List Level}, deleteGo h1 k ls = (b, ls') →
      (b = false ∧ ls' = ls ∧ ∀ L ∈ ls, findMatch k (h1 k) L = none) ∨
      (b = true ∧ ∃ pre L post i pos, ls = pre ++ L :: post ∧
        ls' = pre ++ L.setSlot pos .tombstone :: post ∧
        probePos (h1 k) i L.capacity = pos ∧ i < L.probeLen ∧ pos < L.capacity ∧
        (∃ v₀, holdsVal L pos k v₀) ∧
        (∀ M ∈ pre, findMatch k (h1 k) M = none)) := by
  intro ls
  induction ls with
  | nil =>
    intro b ls' h
    simp only [deleteGo] at h
    injection h with hb hls
    exact Or.inl ⟨hb.symm, hls.symm, by intro L hL; exact absurd hL (List.not_mem_nil L)⟩
  | cons L rest ih =>
    intro b ls' h
    cases hm : findMatch k (h1 k) L with
    | some i =>
      simp only [deleteGo, hm] at h
      injection h with hb hls
      obtain ⟨hiLt, v₀, hv₀⟩ := findMatch_some_holds hm
      refine Or.inr ⟨hb.symm, [], L, rest, i, probePos (h1 k) i L.capacity, rfl, ?_,
        rfl, hiLt, hv₀.1, ⟨v₀, hv₀⟩, ?_⟩
      · rw [← hls]; rfl
      · intro M hM; exact absurd hM (List.not_mem_nil M)
    | none =>
      rcases hrec : deleteGo h1 k rest with ⟨b₀, rest₀⟩
      simp only [deleteGo, hm, hrec] at h
      injection h with hb hls
      rcases ih hrec with ⟨hb₀, hr₀, hnone⟩ | ⟨hb₀, pre, L₀, post, i, pos, hsp, hsp', hpe, hil, hpl, hv, hpre⟩
      · refine Or.inl ⟨by rw [← hb, hb₀], ?_, ?_⟩
        · rw [← hls, hr₀]
        · intro M hM
          rcases List.mem_cons.mp hM with hML | hM₀
          · rw [hML]; exact hm
          · exact hnone M hM₀
      · refine Or.inr ⟨by rw [← hb, hb₀], L :: pre, L₀, post, i, pos, ?_, ?_, hpe, hil,
          hpl, hv, ?_⟩
        · rw [hsp]; rfl
        · rw [← hls, hsp']; rfl
        · intro M hM
          rcases List.mem_cons.mp hM with hML | hM₀
          · rw [hML]; exact hm
          · exact hpre M hM₀

theorem deleteGo_not_found {h1 : Nat → Nat} {k : Nat} :
    ∀ {ls : List Level}, (∀ L ∈ ls, ¬ L.hasKey k) → deleteGo h1 k ls = (false, ls) := by
  intro ls
  induction ls with
  | nil => intro _; rfl
  | cons L rest ih =>
    intro hno
    have hm : findMatch k (h1 k) L = none :=
      findMatch_none_of_not_hasKey (hno L (List.mem_cons_self L rest))
    have hrec := ih (fun M hM => hno M (List.mem_cons_of_mem L hM))
    simp only [deleteGo, hm, hrec]

theorem deleteKey_eq {h1 : Nat → Nat} {t : ElasticTable} {k : Nat} :
    deleteKey h1 t k = ((deleteGo h1 k t.levels).1, ⟨(deleteGo h1 k t.levels).2⟩) := by
  unfold deleteKey
  rcases hd : deleteGo h1 k t.levels with ⟨b, ls⟩
  rfl

theorem delete_spec {h1 : Nat → Nat} {t : ElasticTable} {k : Nat} (hInv : Inv h1 t) :
    Inv h1 (deleteKey h1 t k).2 ∧ SameShape t (deleteKey h1 t k).2 ∧
      lookup h1 (deleteKey h1 t k).2 k = none ∧
      (¬ tableHasKey t k → deleteKey h1 t k = (false, t)) := by
  obtain ⟨hmem, hdisj, hstack⟩ := hInv
  rcases hd : deleteGo h1 k t.levels with ⟨b, ls'⟩
  have hkey2 : (deleteKey h1 t k).2 = ⟨ls'⟩ := by rw [deleteKey_eq, hd]
  rcases deleteGo_elim hd with ⟨hb, hls, hnone⟩ | ⟨hb, pre, L, post, i, pos, hsp, hsp', hpe, hil, hposLt, ⟨v₀, hv₀⟩, hpre⟩
  · -- nothing found: state unchanged
    subst hls
    have hteq : (deleteKey h1 t k).2 = t := by
      rw [hkey2]
    rw [hteq]
    refine ⟨⟨hmem, hdisj, hstack⟩, ⟨rfl, rfl⟩, ?_, ?_⟩
    · unfold lookup
      apply lookupGo_none
      intro M hM
      exact not_hasKey_of_findMatch_none (hmem M hM).2.2 (hnone M hM)
    · intro _
      rw [deleteKey_eq, hd, hb]
  · -- found: the slot becomes a tombstone
    have hLmem : L ∈ t.levels := by
      rw [hsp]; exact List.mem_append_right _ (List.mem_cons_self _ _)
    have hWFL := (hmem L hLmem).1
    have hUL := (hmem L hLmem).2.1
    have hFL := (hmem L hLmem).2.2
    have hocc : Slot.isOccupied (L.slots.getD pos .empty) = true := by
      rw [hv₀.2]; rfl
    have hcc : (L.setSlot pos .tombstone).currentCount = L.currentCount :=
      currentCount_setSlot_tombstone hposLt hocc
    have hpl : (L.setSlot pos .tombstone).probeLen = L.probeLen := by
      unfold Level.probeLen; rw [hcc]
    have hKsub : ∀ kk, (L.setSlot pos .tombstone).hasKey kk → L.hasKey kk := by
      intro kk hkk
      obtain ⟨q, vq, hne, hq⟩ := (hasKey_setSlot_tombstone_iff hposLt kk).mp hkk
      exact ⟨q, vq, hq⟩
    have hnk' : ¬ (L.setSlot pos .tombstone).hasKey k := by
      intro hkk
      obtain ⟨q, vq, hne, hq⟩ := (hasKey_setSlot_tombstone_iff hposLt k).mp hkk
      exact hne (hUL q pos k vq v₀ hq hv₀).1
    have hWF' : Level.WF (L.setSlot pos .tombstone) := by
      refine ⟨?_, ?_, ?_⟩
      · rw [capacity_setSlot]; exact hWFL.1
      · rw [capacity_setSlot, threshold_setSlot]; exact hWFL.2.1
      · rw [threshold_setSlot, hcc]; exact hWFL.2.2
    have hU' : LevelUnique (L.setSlot pos .tombstone) := by
      intro q q' kk vv vv' hq hq'
      rcases (holdsVal_setSlot_iff hposLt _).mp hq with ⟨_, hs⟩ | ⟨_, hold⟩
      · exact Slot.noConfusion hs
      · rcases (holdsVal_setSlot_iff hposLt _).mp hq' with ⟨_, hs'⟩ | ⟨_, hold'⟩
        · exact Slot.noConfusion hs'
        · exact hUL q q' kk vv vv' hold hold'
    have hF' : LevelFindable h1 (L.setSlot pos .tombstone) := by
      intro q kk vv hq
      rcases (holdsVal_setSlot_iff hposLt _).mp hq with ⟨_, hs⟩ | ⟨hne, hold⟩
      · exact Slot.noConfusion hs
      · obtain ⟨j, hj, hjpos⟩ := hFL q kk vv hold
        refine ⟨j, by rw [hpl]; exact hj, ?_⟩
        rw [capacity_setSlot]
        exact hjpos
    rw [hsp] at hdisj hstack
    rcases List.pairwise_append.mp hdisj with ⟨hdP, hdC, hdX⟩
    rcases List.pairwise_cons.mp hdC with ⟨hdLpost, hdPost⟩
    rcases List.pairwise_append.mp hstack with ⟨hsP, hsC, hsX⟩
    rcases List.pairwise_cons.mp hsC with ⟨hsLpost, hsPost⟩
    have hpreNoK : ∀ M ∈ pre, ¬ M.hasKey k := by
      intro M hM
      have hMmem : M ∈ t.levels := by rw [hsp]; exact List.mem_append_left _ hM
      exact not_hasKey_of_findMatch_none (hmem M hMmem).2.2 (hpre M hM)
    have hpostNoK : ∀ M ∈ post, ¬ M.hasKey k := by
      intro M hM
      exact hdLpost M hM k ⟨pos, v₀, hv₀⟩
    rw [hkey2]
    refine ⟨⟨?_, ?_, ?_⟩, ?_, ?_, ?_⟩
    · intro M hM
      rw [hsp'] at hM
      rcases List.mem_append.mp hM with hMpre | hMc
      · exact hmem M (by rw [hsp]; exact List.mem_append_left _ hMpre)
      rcases List.mem_cons.mp hMc with hML | hMpost
      · rw [hML]; exact ⟨hWF', hU', hF'⟩
      · exact hmem M
          (by rw [hsp]; exact List.mem_append_right _ (List.mem_cons_of_mem _ hMpost))
    · rw [hsp']
      apply List.pairwise_append.mpr
      refine ⟨hdP, ?_, ?_⟩
      · apply List.pairwise_cons.mpr
        refine ⟨?_, hdPost⟩
        intro M hM kk hkk
        exact hdLpost M hM kk (hKsub kk hkk)
      · intro a ha b hb
        rcases List.mem_cons.mp hb with hbL | hbpost
        · intro kk hak hbk
          rw [hbL] at hbk
          exact hdX a ha L (List.mem_cons_self _ _) kk hak (hKsub kk hbk)
        · exact hdX a ha b (List.mem_cons_of_mem _ hbpost)
    · rw [hsp']
      apply List.pairwise_append.mpr
      refine ⟨hsP, ?_, ?_⟩
      · apply List.pairwise_cons.mpr
        refine ⟨?_, hsPost⟩
        intro M hM hMkeys
        rw [threshold_setSlot, hcc]
        exact hsLpost M hM hMkeys
      · intro a ha b hb
        rcases List.mem_cons.mp hb with hbL | hbpost
        · intro hbk
          obtain ⟨kk, hkk⟩ := hbk
          rw [hbL] at hkk
          exact hsX a ha L (List.mem_cons_self _ _) ⟨kk, hKsub kk hkk⟩
        · exact hsX a ha b (List.mem_cons_of_mem _ hbpost)
    · constructor
      · rw [hsp, hsp']
        simp [List.map_append, capacity_setSlot]
      · rw [hsp, hsp']
        simp [List.map_append, threshold_setSlot]
    · unfold lookup
      rw [hsp']
      apply lookupGo_none
      intro M hM
      rcases List.mem_append.mp hM with hMpre | hMc
      · exact hpreNoK M hMpre
      rcases List.mem_cons.mp hMc with hML | hMpost
      · rw [hML]; exact hnk'
      · exact hpostNoK M hMpost
    · intro hNot
      exact absurd ⟨L, hLmem, ⟨pos, v₀, hv₀⟩⟩ hNot

theorem midCaps_length : ∀ (n r : Nat), (midCaps n r).length = n
  | 0, _ => rfl
  | 1, _ => rfl
  | n + 2, r => by
    simp only [midCaps, List.length_cons]
    rw [midCaps_length (n + 1)]

theorem midCaps_sum : ∀ (n r : Nat), 1 ≤ n → (midCaps n r).sum = r
  | 0, _, h => by omega
  | 1, r, _ => by simp [midCaps]
  | n + 2, r, _ => by
    simp only [midCaps, List.sum_cons]
    rw [midCaps_sum (n + 1) _ (by omega)]
    omega

theorem assignThr_length : ∀ (l : List Nat) (a : Nat), (assignThr l a).length = l.length
  | [], _ => rfl
  | c :: rest, a => by
    simp only [assignThr, List.length_cons]
    rw [assignThr_length rest]

theorem assignThr_sum : ∀ (l : List Nat) (a : Nat), (assignThr l a).sum = min l.sum a
  | [], a => by simp [assignThr]
  | c :: rest, a => by
    simp only [assignThr, List.sum_cons]
    rw [assignThr_sum rest]
    omega

theorem assignThr_le : ∀ (l : List Nat) (a : Nat),
    List.Forall₂ (fun th c => th ≤ c) (assignThr l a) l
  | [], _ => List.Forall₂.nil
  | c :: rest, a => List.Forall₂.cons (Nat.min_le_left c a) (assignThr_le rest _)

theorem numLevels_ge_two {δ : ℚ} (h0 : 0 < δ) (h1 : δ < 1) : 2 ≤ numLevels δ := by
  unfold numLevels
  have h2 : (1 : ℚ) < 1 / δ := by
    rw [lt_div_iff h0]
    simpa using h1
  have h3 : (1 : ℤ) < Int.ceil ((1 : ℚ) / δ) := by
    rw [Int.lt_ceil]
    exact_mod_cast h2
  have h4 : 2 ≤ (Int.ceil ((1 : ℚ) / δ)).toNat := by omega
  have h5 := Nat.clog_pos one_lt_two h4
  omega

theorem planSlack_le {N : Nat} {δ : ℚ} (h0 : 0 < δ) (h1 : δ < 1) :
    planSlack N δ ≤ N := by
  unfold planSlack
  have hle : ((N : ℚ) * δ) / 2 ≤ (N : ℚ) := by
    have hN : (0 : ℚ) ≤ (N : ℚ) := Nat.cast_nonneg N
    nlinarith
  have h2 : Int.ceil (((N : ℚ) * δ) / 2) ≤ (N : ℤ) := by
    rw [Int.ceil_le]
    exact_mod_cast hle
  omega

theorem maxSize_le {N : Nat} {δ : ℚ} (h0 : 0 < δ) : maxSize N δ ≤ N := by
  unfold maxSize
  have hle : (N : ℚ) * (1 - δ) ≤ (N : ℚ) := by
    have hN : (0 : ℚ) ≤ (N : ℚ) := Nat.cast_nonneg N
    nlinarith
  have h2 : Int.floor ((N : ℚ) * (1 - δ)) ≤ (N : ℤ) := by
    calc Int.floor ((N : ℚ) * (1 - δ)) ≤ Int.floor ((N : ℚ)) := Int.floor_le_floor hle
      _ = (N : ℤ) := Int.floor_natCast N
  omega

theorem planCaps_length {N : Nat} {δ : ℚ} : (planCaps N δ).length = numLevels δ := by
  unfold planCaps numLevels
  simp only [List.length_cons, midCaps_length]
  omega

theorem planCaps_sum {N : Nat} {δ : ℚ} (h0 : 0 < δ) (h1 : δ < 1) :
    (planCaps N δ).sum = N := by
  unfold planCaps
  simp only [List.sum_cons]
  rw [midCaps_sum _ _ (by have := numLevels_ge_two h0 h1; omega)]
  have := planSlack_le (N := N) h0 h1
  omega

theorem planThrs_length {N : Nat} {δ : ℚ} : (planThrs N δ).length = (planCaps N δ).length := by
  unfold planThrs
  rw [List.length_reverse, assignThr_length, List.length_reverse]

theorem planThrs_sum {N : Nat} {δ : ℚ} (h0 : 0 < δ) (h1 : δ < 1) :
    (planThrs N δ).sum = maxSize N δ := by
  unfold planThrs
  rw [List.sum_reverse, assignThr_sum, List.sum_reverse, planCaps_sum h0 h1]
  have := maxSize_le (N := N) (δ := δ) h0
  omega

theorem planThrs_le {N : Nat} {δ : ℚ} :
    List.Forall₂ (fun th c => th ≤ c) (planThrs N δ) (planCaps N δ) := by
  unfold planThrs
  have h := assignThr_le (planCaps N δ).reverse (maxSize N δ)
  have h2 := List.rel_reverse h
  rwa [List.reverse_reverse] at h2

theorem map_capacity_zipWith :
    ∀ (cs ts : List Nat), ts.length = cs.length →
      (List.zipWith (fun c th => (⟨th, List.replicate c .empty⟩ : Level)) cs ts).map
          Level.capacity = cs
  | [], _, _ => by simp
  | c :: cs, [], h => by simp at h
  | c :: cs, t :: ts, h => by
    simp only [List.zipWith_cons_cons, List.map_cons]
    rw [map_capacity_zipWith cs ts (by simpa using h)]
    simp [Level.capacity]

theorem map_threshold_zipWith :
    ∀ (cs ts : List Nat), ts.length = cs.length →
      (List.zipWith (fun c th => (⟨th, List.replicate c .empty⟩ : Level)) cs ts).map
          Level.threshold = ts
  | [], [], _ => by simp
  | [], t :: ts, h => by simp at h
  | c :: cs, [], h => by simp
  | c :: cs, t :: ts, h => by
    simp only [List.zipWith_cons_cons, List.map_cons]
    rw [map_threshold_zipWith cs ts (by simpa using h)]

theorem zipWith_levels_facts :
    ∀ {cs ts : List Nat}, List.Forall₂ (fun th c => th ≤ c) ts cs →
      (∀ c ∈ cs, 1 ≤ c) →
      ∀ L ∈ List.zipWith (fun c th => (⟨th, List.replicate c .empty⟩ : Level)) cs ts,
        Level.WF L ∧ (∀ kk, ¬ L.hasKey kk) ∧ Slot.tombstone ∉ L.slots ∧
          L.occupiedCount = 0 := by
  intro cs ts hf
  induction hf with
  | nil =>
    intro _ L hL
    simp at hL
  | @cons th c ts cs hthc hf ih =>
    intro hcs L hL
    simp only [List.zipWith_cons_cons] at hL
    rcases List.mem_cons.mp hL with hL0 | hLrest
    · subst hL0
      have hc1 : 1 ≤ c := hcs c (List.mem_cons_self c _)
      have hcc : Level.currentCount ⟨th, List.replicate c .empty⟩ = 0 := by
        unfold Level.currentCount
        rw [List.countP_eq_zero]
        intro s hs
        rw [List.mem_replicate] at hs
        rw [hs.2]
        simp [Slot.isUsed]
      refine ⟨⟨?_, ?_, ?_⟩, ?_, ?_, ?_⟩
      · unfold Level.capacity
        simpa using hc1
      · unfold Level.capacity
        simpa using hthc
      · rw [hcc]; omega
      · intro kk ⟨p, v, hp, hval⟩
        have hval2 : (List.replicate c Slot.empty).getD p .empty = .empty := by
          by_cases hplen : p < c
          · rw [List.getD_eq_getElem _ _ (by simpa using hplen)]
            exact List.getElem_replicate _ _
          · exact List.getD_eq_default _ _ (by simpa using hplen)
        rw [hval2] at hval
        exact Slot.noConfusion hval
      · intro htomb
        rw [List.mem_replicate] at htomb
        exact Slot.noConfusion htomb.2
      · unfold Level.occupiedCount
        rw [List.countP_eq_zero]
        intro s hs
        rw [List.mem_replicate] at hs
        rw [hs.2]
        simp [Slot.isOccupied]
    · exact ih (fun c₀ hc₀ => hcs c₀ (List.mem_cons_of_mem c hc₀)) L hLrest

theorem mkTable_facts {N : Nat} {δ : ℚ}
    (hv : 0 < δ ∧ δ < 1 ∧ ∀ c ∈ planCaps N δ, 1 ≤ c) (h1 : Nat → Nat) :
    Inv h1 (mkTable N δ) ∧ NoTomb (mkTable N δ) ∧ size (mkTable N δ) = 0 ∧
      (∀ kk, ¬ tableHasKey (mkTable N δ) kk) ∧
      (mkTable N δ).levels.map Level.capacity = planCaps N δ ∧
      (mkTable N δ).levels.map Level.threshold = planThrs N δ := by
  have hlen : (planThrs N δ).length = (planCaps N δ).length := planThrs_length
  have hfacts := zipWith_levels_facts planThrs_le hv.2.2
  have hnokey : ∀ L ∈ (mkTable N δ).levels, ∀ kk, ¬ L.hasKey kk := by
    intro L hL
    exact (hfacts L hL).2.1
  refine ⟨⟨?_, ?_, ?_⟩, ?_, ?_, ?_, ?_, ?_⟩
  · intro L hL
    refine ⟨(hfacts L hL).1, ?_, ?_⟩
    · intro p q kk vv vv' hp hq
      exact absurd (hasKey_of_holdsVal hp) (hnokey L hL kk)
    · intro p kk vv hp
      exact absurd (hasKey_of_holdsVal hp) (hnokey L hL kk)
  · apply List.pairwise_of_forall_mem_list
    intro a ha b hb kk hak
    exact absurd hak (hnokey a ha kk)
  · apply List.pairwise_of_forall_mem_list
    intro a ha b hb ⟨kk, hbk⟩
    exact absurd hbk (hnokey b hb kk)
  · intro L hL
    exact (hfacts L hL).2.2.1
  · unfold size
    apply List.sum_eq_zero
    intro x hx
    rw [List.mem_map] at hx
    obtain ⟨L, hL, hLx⟩ := hx
    rw [← hLx]
    exact (hfacts L hL).2.2.2
  · intro kk ⟨L, hL, hk⟩
    exact hnokey L hL kk hk
  · exact map_capacity_zipWith _ _ hlen
  · exact map_threshold_zipWith _ _ hlen

theorem construct_ok_iff {N : Nat} {δ : ℚ} {t : ElasticTable} :
    construct N δ = .ok t ↔
      ((0 < δ ∧ δ < 1 ∧ ∀ c ∈ planCaps N δ, 1 ≤ c) ∧ t = mkTable N δ) := by
  unfold construct
  by_cases hv : 0 < δ ∧ δ < 1 ∧ ∀ c ∈ planCaps N δ, 1 ≤ c
  · rw [if_pos hv]
    constructor
    · intro h
      injection h with h
      exact ⟨hv, h.symm⟩
    · intro ⟨_, h⟩
      rw [h]
  · rw [if_neg hv]
    constructor
    · intro h; exact Except.noConfusion h
    · intro ⟨h, _⟩; exact absurd h hv

theorem reachable_spec {h1 : Nat → Nat} {N : Nat} {δ : ℚ} {t : ElasticTable}
    (hR : Reachable h1 N δ t) :
    (0 < δ ∧ δ < 1 ∧ ∀ c ∈ planCaps N δ, 1 ≤ c) ∧ Inv h1 t ∧
      SameShape t (mkTable N δ) := by
  induction hR with
  | init t h =>
    obtain ⟨hv, ht⟩ := construct_ok_iff.mp h
    subst ht
    exact ⟨hv, (mkTable_facts hv h1).1, rfl, rfl⟩
  | insertStep t k v p t' hR hins ih =>
    obtain ⟨hv, hInv, hShape⟩ := ih
    obtain ⟨hInv', hShape', _⟩ := insert_ok_spec hInv hins
    exact ⟨hv, hInv', hShape'.1.symm.trans hShape.1, hShape'.2.symm.trans hShape.2⟩
  | deleteStep t k hR ih =>
    obtain ⟨hv, hInv, hShape⟩ := ih
    obtain ⟨hInv', hShape', _⟩ := delete_spec hInv
    exact ⟨hv, hInv', hShape'.1.symm.trans hShape.1, hShape'.2.symm.trans hShape.2⟩

theorem reachableI_spec {h1 : Nat → Nat} {N : Nat} {δ : ℚ} {t : ElasticTable}
    (hRI : ReachableI h1 N δ t) : Reachable h1 N δ t ∧ NoTomb t := by
  induction hRI with
  | init t h =>
    obtain ⟨hv, ht⟩ := construct_ok_iff.mp h
    refine ⟨Reachable.init t (construct_ok_iff.mpr ⟨hv, ht⟩), ?_⟩
    subst ht
    exact (mkTable_facts hv h1).2.1
  | insertStep t k v p t' hRI hins ih =>
    obtain ⟨hR, hNT⟩ := ih
    have hInv := (reachable_spec hR).2.1
    exact ⟨Reachable.insertStep t k v p t' hR hins,
      (insert_ok_spec hInv hins).2.2.2.2.2.2 hNT⟩

theorem occ_eq_cc_of_noTomb {L : Level} (h : Slot.tombstone ∉ L.slots) :
    L.occupiedCount = L.currentCount := by
  unfold Level.occupiedCount Level.currentCount
  apply List.countP_congr
  intro s hs
  cases s with
  | empty => simp [Slot.isOccupied, Slot.isUsed]
  | occupied k v => simp [Slot.isOccupied, Slot.isUsed]
  | tombstone => exact absurd hs h

theorem forall_ge_of_sum_le {α : Type} (f g : α → Nat) :
    ∀ (l : List α), (∀ x ∈ l, f x ≤ g x) → (l.map g).sum ≤ (l.map f).sum →
      ∀ x ∈ l, g x ≤ f x
  | [], _, _ => by intro x hx; exact absurd hx (List.not_mem_nil x)
  | a :: l, hle, hsum => by
    have htail : (l.map f).sum ≤ (l.map g).sum :=
      List.sum_le_sum (fun x hx => hle x (List.mem_cons_of_mem a hx))
    simp only [List.map_cons, List.sum_cons] at hsum
    have hfa := hle a (List.mem_cons_self a l)
    intro x hx
    rcases List.mem_cons.mp hx with hxa | hxl
    · subst hxa; omega
    · exact forall_ge_of_sum_le f g l (fun y hy => hle y (List.mem_cons_of_mem a hy))
        (by omega) x hxl

theorem thr_sum_eq {h1 : Nat → Nat} {N : Nat} {δ : ℚ} {t : ElasticTable}
    (hR : Reachable h1 N δ t) :
    (t.levels.map Level.threshold).sum = maxSize N δ := by
  obtain ⟨hv, _, hShape⟩ := reachable_spec hR
  rw [hShape.2, (mkTable_facts hv h1).2.2.2.2.2, planThrs_sum hv.1 hv.2.1]

theorem size_le_maxSize {h1 : Nat → Nat} {N : Nat} {δ : ℚ} {t : ElasticTable}
    (hR : Reachable h1 N δ t) : size t ≤ maxSize N δ := by
  obtain ⟨hv, hInv, hShape⟩ := reachable_spec hR
  have hle : (t.levels.map Level.occupiedCount).sum ≤
      (t.levels.map Level.threshold).sum := by
    apply List.sum_le_sum
    intro L hL
    obtain ⟨_, _, hcc⟩ := (hInv.1 L hL).1
    have h2 := occupiedCount_le_currentCount L
    omega
  calc size t = (t.levels.map Level.occupiedCount).sum := rfl
    _ ≤ (t.levels.map Level.threshold).sum := hle
    _ = maxSize N δ := thr_sum_eq hR

theorem all_closed_of_size_eq {h1 : Nat → Nat} {N : Nat} {δ : ℚ} {t : ElasticTable}
    (hRI : ReachableI h1 N δ t) (hsz : size t = maxSize N δ) :
    ∀ L ∈ t.levels, L.threshold ≤ L.currentCount := by
  obtain ⟨hR, _⟩ := reachableI_spec hRI
  obtain ⟨hv, hInv, _⟩ := reachable_spec hR
  have hle : ∀ L ∈ t.levels, L.occupiedCount ≤ L.threshold := by
    intro L hL
    obtain ⟨_, _, hcc⟩ := (hInv.1 L hL).1
    have h2 := occupiedCount_le_currentCount L
    omega
  have hsum : (t.levels.map Level.threshold).sum ≤
      (t.levels.map Level.occupiedCount).sum := by
    rw [thr_sum_eq hR, ← hsz]
    exact le_refl _
  have hge := forall_ge_of_sum_le Level.occupiedCount Level.threshold t.levels hle hsum
  intro L hL
  have h2 := hge L hL
  have h3 := occupiedCount_le_currentCount L
  omega

theorem exists_open_of_size_lt {h1 : Nat → Nat} {N : Nat} {δ : ℚ} {t : ElasticTable}
    (hRI : ReachableI h1 N δ t) (hsz : size t < maxSize N δ) :
    ∃ L ∈ t.levels, L.currentCount < L.threshold := by
  obtain ⟨hR, hNT⟩ := reachableI_spec hRI
  by_contra hno
  push_neg at hno
  have hge : ∀ L ∈ t.levels, L.threshold ≤ L.occupiedCount := by
    intro L hL
    have h2 := hno L hL
    rw [occ_eq_cc_of_noTomb (hNT L hL)]
    omega
  have hsum : (t.levels.map Level.threshold).sum ≤
      (t.levels.map Level.occupiedCount).sum := List.sum_le_sum hge
  rw [thr_sum_eq hR] at hsum
  have h3 : maxSize N δ ≤ size t := hsum
  omega

theorem insertsVisible_aux {h1 : Nat → Nat} {N : Nat} {δ : ℚ} :
    ∀ (kvs : List (Nat × Nat)) (t : ElasticTable), ReachableI h1 N δ t →
      (∀ kv ∈ kvs, ¬ tableHasKey t kv.1) → (kvs.map Prod.fst).Nodup →
      size t + kvs.length ≤ maxSize N δ → InsertsVisible h1 t kvs
  | [], t, _, _, _, _ => trivial
  | kv :: kvs, t, hRI, hfresh, hnd, hsz => by
    obtain ⟨hR, hNT⟩ := reachableI_spec hRI
    obtain ⟨hv, hInv, hShape⟩ := reachable_spec hR
    have hszlt : size t < maxSize N δ := by
      simp only [List.length_cons] at hsz
      omega
    obtain ⟨L0, hL0, hgate⟩ := exists_open_of_size_lt hRI hszlt
    have hfresh0 : ¬ tableHasKey t kv.1 := hfresh kv (List.mem_cons_self kv kvs)
    obtain ⟨p, t', hins⟩ := insert_ok_of_gate kv.2 hInv hfresh0 ⟨L0, hL0, hgate⟩
    obtain ⟨hInv', hShape', hlook, hkeys, _, hsizeF, hNTp⟩ := insert_ok_spec hInv hins
    have hRI' : ReachableI h1 N δ t' := ReachableI.insertStep t kv.1 kv.2 p t' hRI hins
    simp only [List.map_cons, List.nodup_cons] at hnd
    refine ⟨p, t', hins, hlook, ?_⟩
    apply insertsVisible_aux kvs t' hRI'
    · intro kv' hkv' hk'
      rcases (hkeys kv'.1).mp hk' with heq | hold
      · exact hnd.1 (heq ▸ List.mem_map_of_mem Prod.fst hkv')
      · exact hfresh kv' (List.mem_cons_of_mem _ hkv') hold
    · exact hnd.2
    · rw [hsizeF hfresh0]
      simp only [List.length_cons] at hsz
      omega

theorem hasKey_iff_B {L : Level} {k : Nat} : L.hasKey k ↔ L.hasKeyB k = true := by
  unfold Level.hasKey Level.hasKeyB
  rw [List.any_eq_true]
  constructor
  · intro ⟨p, v, hlt, heq⟩
    have hlt2 : p < L.slots.length := hlt
    refine ⟨L.slots[p], List.getElem_mem hlt2, ?_⟩
    rw [List.getD_eq_getElem _ _ hlt2] at heq
    rw [heq]
    simp [Slot.holdsKey]
  · intro ⟨s, hs, hsk⟩
    obtain ⟨v, rfl⟩ := holdsKey_iff.mp hsk
    obtain ⟨p, hlt, hps⟩ := List.mem_iff_getElem.mp hs
    exact ⟨p, v, hlt, by rw [List.getD_eq_getElem _ _ hlt, hps]⟩

theorem tableHasKey_iff_B {t : ElasticTable} {k : Nat} :
    tableHasKey t k ↔ tableHasKeyB t k = true := by
  unfold tableHasKey tableHasKeyB
  rw [List.any_eq_true]
  constructor
  · intro ⟨L, hL, hk⟩; exact ⟨L, hL, hasKey_iff_B.mp hk⟩
  · intro ⟨L, hL, hk⟩; exact ⟨L, hL, hasKey_iff_B.mpr hk⟩

theorem maxSize_4 : maxSize 4 (1/2) = 2 := by
  unfold maxSize
  have h : ((4:ℕ):ℚ) * (1 - 1/2) = ((2:ℤ):ℚ) := by norm_num
  rw [h, Int.floor_intCast]
  rfl

theorem numLevels_half : numLevels (1/2) = 2 := by
  unfold numLevels
  have h : (1:ℚ) / (1/2) = ((2:ℤ):ℚ) := by norm_num
  rw [h, Int.ceil_intCast]
  have h2 : Int.toNat 2 = 2 := rfl
  rw [h2]
  norm_num [Nat.clog]

theorem planSlack_4 : planSlack 4 (1/2) = 1 := by
  unfold planSlack
  have h : (((4:ℕ)):ℚ) * (1/2) / 2 = ((1:ℤ):ℚ) := by norm_num
  rw [h, Int.ceil_intCast]
  rfl

theorem planCaps_4 : planCaps 4 (1/2) = [3, 1] := by
  unfold planCaps
  rw [planSlack_4, numLevels_half]
  rfl

theorem planThrs_4 : planThrs 4 (1/2) = [1, 1] := by
  unfold planThrs
  rw [planCaps_4, maxSize_4]
  rfl

theorem t4_eq : t4 = ⟨[⟨1, [.empty, .empty, .empty]⟩, ⟨1, [.empty]⟩]⟩ := by
  unfold t4 mkTable
  rw [planCaps_4, planThrs_4]
  rfl

theorem construct_4 : construct 4 (1/2) = .ok t4 := by
  unfold construct
  have hv : (0:ℚ) < 1/2 ∧ (1/2:ℚ) < 1 ∧ ∀ c ∈ planCaps 4 (1/2), 1 ≤ c :=
    ⟨by norm_num, by norm_num, by rw [planCaps_4]; decide⟩
  rw [if_pos hv]
  rfl

theorem t4_ins0 : insert hId t4 0 10 = .ok (1, t4a) := by
  rw [t4_eq]
  rfl

theorem t4a_ins1 : insert hId t4a 1 11 = .ok (3, t4b) := by rfl

theorem t4b_del0 : deleteKey hId t4b 0 = (true, t4c) := by rfl

theorem t4_reach : Reachable hId 4 (1/2) t4 := .init t4 construct_4

theorem t4a_reach : Reachable hId 4 (1/2) t4a :=
  .insertStep t4 0 10 1 t4a t4_reach t4_ins0

theorem t4b_reach : Reachable hId 4 (1/2) t4b :=
  .insertStep t4a 1 11 3 t4b t4a_reach t4a_ins1

theorem t4c_reach : Reachable hId 4 (1/2) t4c := by
  have h := Reachable.deleteStep t4b 0 t4b_reach
  have he : (deleteKey hId t4b 0).2 = t4c := by rw [t4b_del0]
  rwa [he] at h

theorem t4b_reachI : ReachableI hId 4 (1/2) t4b :=
  .insertStep t4a 1 11 3 t4b (.insertStep t4 0 10 1 t4a (.init t4 construct_4) t4_ins0)
    t4a_ins1

theorem maxSize_demo : maxSize demoN demoDelta = 950000 := by
  unfold maxSize demoN demoDelta
  have h : ((1000000:ℕ):ℚ) * (1 - 1/20) = ((950000:ℤ):ℚ) := by norm_num
  rw [h, Int.floor_intCast]
  rfl

theorem sum_probeLen (ls : List Level) :
    (ls.map Level.probeLen).sum = (ls.map Level.currentCount).sum + ls.length := by
  induction ls with
  | nil => rfl
  | cons L ls ih =>
    simp only [List.map_cons, List.sum_cons, List.length_cons]
    rw [ih]
    unfold Level.probeLen
    omega

theorem levels_length_of_reachable {h1 : Nat → Nat} {N : Nat} {δ : ℚ}
    {t : ElasticTable} (hR : Reachable h1 N δ t) : t.levels.length = numLevels δ := by
  obtain ⟨hv, _, hShape⟩ := reachable_spec hR
  calc t.levels.length = (t.levels.map Level.capacity).length :=
        (List.length_map _ _).symm
    _ = ((mkTable N δ).levels.map Level.capacity).length := by rw [hShape.1]
    _ = (planCaps N δ).length := by rw [(mkTable_facts hv h1).2.2.2.2.1]
    _ = numLevels δ := planCaps_length

theorem repl_cc (q : Nat) :
    List.countP Slot.isUsed (List.replicate q (Slot.empty : Slot)) = 0 := by
  rw [List.countP_eq_zero]
  intro s hs
  rw [List.mem_replicate] at hs
  rw [hs.2]
  simp [Slot.isUsed]

theorem replLevel_cc (th q : Nat) :
    Level.currentCount ⟨th, List.replicate q .empty⟩ = 0 := repl_cc q

theorem replLevel_pl (th q : Nat) :
    Level.probeLen ⟨th, List.replicate q .empty⟩ = 1 := by
  unfold Level.probeLen
  rw [replLevel_cc]

theorem replLevel_cap (th q : Nat) :
    Level.capacity ⟨th, List.replicate q .empty⟩ = q := by
  show (List.replicate q (Slot.empty : Slot)).length = q
  simp

theorem repl_getD (q : Nat) (hq : 1 ≤ q) :
    (List.replicate q (Slot.empty : Slot)).getD 0 .empty = .empty := by
  rw [List.getD_eq_getElem _ _ (by rw [List.length_replicate]; omega)]
  exact List.getElem_replicate _ _

theorem repl_findMatch (th q k : Nat) (hq : 1 ≤ q) :
    findMatch k 0 (⟨th, List.replicate q .empty⟩ : Level) = none := by
  unfold findMatch
  rw [replLevel_pl, replLevel_cap, scanFrom_none_iff]
  intro i hi
  have hi0 : i = 0 := by omega
  subst hi0
  show Slot.holdsKey k
    ((List.replicate q (Slot.empty : Slot)).getD ((0 + 0) % q) .empty) = false
  have h00 : (0 + 0) % q = 0 := by
    rw [Nat.zero_add]
    exact Nat.zero_mod q
  rw [h00, repl_getD q hq]
  rfl

theorem repl_findFree (th q : Nat) (hq : 1 ≤ q) :
    findFree 0 (⟨th, List.replicate q .empty⟩ : Level) = some 0 := by
  unfold findFree
  rw [replLevel_pl, replLevel_cap, scanFrom_some_iff]
  refine ⟨by omega, ?_, ?_⟩
  · show Slot.isFree
      ((List.replicate q (Slot.empty : Slot)).getD ((0 + 0) % q) .empty) = true
    have h00 : (0 + 0) % q = 0 := by
      rw [Nat.zero_add]
      exact Nat.zero_mod q
    rw [h00, repl_getD q hq]
    rfl
  · intro j hj
    exact absurd hj (Nat.not_lt_zero j)

theorem thinDelta_pos (q : Nat) (hq : 1 ≤ q) : 0 < thinDelta q := by
  unfold thinDelta
  have hq' : (1:ℚ) ≤ (q:ℚ) := by exact_mod_cast hq
  have h2q : (2:ℚ) ≤ 2*(q:ℚ) := by linarith
  have hfrac : 1/(2*(q:ℚ)) ≤ 1/2 := one_div_le_one_div_of_le (by norm_num) h2q
  linarith

theorem thinDelta_lt_one (q : Nat) (hq : 1 ≤ q) : thinDelta q < 1 := by
  unfold thinDelta
  have hq' : (1:ℚ) ≤ (q:ℚ) := by exact_mod_cast hq
  have h2q : (0:ℚ) < 2*(q:ℚ) := by linarith
  have hpos : (0:ℚ) < 1/(2*(q:ℚ)) := one_div_pos.mpr h2q
  linarith

theorem thinDelta_half (q : Nat) (hq : 1 ≤ q) : 1/2 ≤ thinDelta q := by
  unfold thinDelta
  have hq' : (1:ℚ) ≤ (q:ℚ) := by exact_mod_cast hq
  have h2q : (2:ℚ) ≤ 2*(q:ℚ) := by linarith
  have hfrac : 1/(2*(q:ℚ)) ≤ 1/2 := one_div_le_one_div_of_le (by norm_num) h2q
  linarith

theorem thin_maxSize (q : Nat) (hq : 1 ≤ q) : maxSize (2*q) (thinDelta q) = 1 := by
  unfold maxSize thinDelta
  have hq' : (1:ℚ) ≤ (q:ℚ) := by exact_mod_cast hq
  have hne : (2*(q:ℚ)) ≠ 0 := by linarith
  have h : ((2*q : Nat) : ℚ) * (1 - (1 - 1/(2*(q:ℚ)))) = ((1 : Nat) : ℚ) := by
    push_cast
    field_simp
  rw [h, Int.floor_natCast]
  rfl

theorem thin_planSlack (q : Nat) (hq : 1 ≤ q) : planSlack (2*q) (thinDelta q) = q := by
  unfold planSlack thinDelta
  have hq' : (1:ℚ) ≤ (q:ℚ) := by exact_mod_cast hq
  have hne : (2*(q:ℚ)) ≠ 0 := by linarith
  have h : ((2*q : Nat) : ℚ) * (1 - 1/(2*(q:ℚ))) / 2 = -(1/2) + ((q:ℤ):ℚ) := by
    push_cast
    field_simp
    ring
  rw [h, Int.ceil_add_int]
  have hhalf : Int.ceil ((-(1/2) : ℚ)) = 0 := by
    rw [Int.ceil_eq_iff]
    norm_num
  rw [hhalf, zero_add]
  rfl

theorem thin_numLevels (q : Nat) (hq : 1 ≤ q) : numLevels (thinDelta q) = 2 := by
  unfold numLevels
  have hpos := thinDelta_pos q hq
  have hhalf := thinDelta_half q hq
  have hlt := thinDelta_lt_one q hq
  have hceil : Int.ceil ((1:ℚ) / thinDelta q) = 2 := by
    rw [Int.ceil_eq_iff]
    constructor
    · have h1 : (1:ℚ) < 1 / thinDelta q := (one_lt_div hpos).mpr hlt
      push_cast
      linarith
    · rw [div_le_iff hpos]
      push_cast
      linarith
  rw [hceil]
  have h2 : ((2:ℤ)).toNat = 2 := rfl
  rw [h2]
  norm_num [Nat.clog]

theorem thin_planCaps (q : Nat) (hq : 1 ≤ q) :
    planCaps (2*q) (thinDelta q) = [q, q] := by
  unfold planCaps
  rw [thin_planSlack q hq, thin_numLevels q hq]
  have h : 2*q - q = q := by omega
  rw [h]
  rfl

theorem thin_planThrs (q : Nat) (hq : 1 ≤ q) :
    planThrs (2*q) (thinDelta q) = [0, 1] := by
  unfold planThrs
  rw [thin_planCaps q hq, thin_maxSize q hq]
  have hrev : ([q, q] : List Nat).reverse = [q, q] := rfl
  rw [hrev]
  simp only [assignThr]
  have h1 : min q 1 = 1 := by omega
  rw [h1]
  have h2 : min q (1 - 1) = 0 := by omega
  rw [h2]
  rfl

theorem thin_mkTable (q : Nat) (hq : 1 ≤ q) :
    mkTable (2*q) (thinDelta q) = thinState q := by
  unfold mkTable
  rw [thin_planCaps q hq, thin_planThrs q hq]
  rfl

theorem thin_construct (q : Nat) (hq : 1 ≤ q) :
    construct (2*q) (thinDelta q) = .ok (thinState q) := by
  apply construct_ok_iff.mpr
  refine ⟨⟨thinDelta_pos q hq, thinDelta_lt_one q hq, ?_⟩, (thin_mkTable q hq).symm⟩
  rw [thin_planCaps q hq]
  intro c hc
  rcases List.mem_cons.mp hc with h | h
  · omega
  · rcases List.mem_cons.mp h with h2 | h2
    · omega
    · exact absurd h2 (List.not_mem_nil c)

theorem thin_insert (q : Nat) (hq : 1 ≤ q) :
    insert hId (thinState q) 0 0 = .ok (2,
      ⟨[⟨0, List.replicate q .empty⟩,
        ⟨1, (List.replicate q (Slot.empty : Slot)).set 0 (.occupied 0 0)⟩]⟩) := by
  rw [insert_ok_iff]
  have hz : hId 0 = 0 := rfl
  have hgate0 : ¬ Level.currentCount (⟨0, List.replicate q .empty⟩ : Level) <
      Level.threshold ⟨0, List.replicate q .empty⟩ := by
    rw [replLevel_cc]
    exact Nat.lt_irrefl 0
  have hgate1 : Level.currentCount (⟨1, List.replicate q .empty⟩ : Level) <
      Level.threshold ⟨1, List.replicate q .empty⟩ := by
    rw [replLevel_cc]
    exact Nat.zero_lt_one
  show insertGo hId 0 0 [⟨0, List.replicate q .empty⟩, ⟨1, List.replicate q .empty⟩] =
    .ok (2, [⟨0, List.replicate q .empty⟩,
      ⟨1, (List.replicate q (Slot.empty : Slot)).set 0 (.occupied 0 0)⟩])
  simp only [insertGo, hz, repl_findMatch 0 q 0 hq, repl_findMatch 1 q 0 hq,
    if_neg hgate0, if_pos hgate1, repl_findFree 1 q hq]
  have hpos : probePos 0 0 (Level.capacity (⟨1, List.replicate q .empty⟩ : Level)) = 0 := by
    rw [replLevel_cap]
    unfold probePos
    rw [Nat.zero_add]
    exact Nat.zero_mod q
  rw [hpos, replLevel_pl]
  rfl

theorem thin_reachable (q : Nat) (hq : 1 ≤ q) :
    Reachable hId (2*q) (thinDelta q) (thinState q) :=
  .init _ (thin_construct q hq)

theorem thin_log_bound (q : Nat) (hq : 1 ≤ q) :
    0 ≤ Real.log (1 / ((thinDelta q : ℚ) : ℝ)) ∧
      Real.log (1 / ((thinDelta q : ℚ) : ℝ)) ≤ 1 / (q : ℝ) := by
  have hq' : (1:ℝ) ≤ (q:ℝ) := by exact_mod_cast hq
  have hqpos : (0:ℝ) < (q:ℝ) := by linarith
  have hx0 : (0:ℝ) < 2*(q:ℝ) := by linarith
  have hcast : ((thinDelta q : ℚ) : ℝ) = 1 - 1/(2*(q:ℝ)) := by
    unfold thinDelta
    push_cast
    ring
  have hfrac_pos : (0:ℝ) < 1/(2*(q:ℝ)) := one_div_pos.mpr hx0
  have hfrac_le : 1/(2*(q:ℝ)) ≤ 1/2 :=
    one_div_le_one_div_of_le (by norm_num) (by linarith)
  have hδpos : (0:ℝ) < ((thinDelta q : ℚ) : ℝ) := by
    rw [hcast]
    linarith
  constructor
  · apply Real.log_nonneg
    rw [le_div_iff hδpos, one_mul, hcast]
    linarith
  · have hlog := Real.log_le_sub_one_of_pos (one_div_pos.mpr hδpos)
    have ha2b : 1/(q:ℝ) = 2*(1/(2*(q:ℝ))) := by
      rw [mul_one_div]
      field_simp
    have hinv : 1/((thinDelta q : ℚ):ℝ) ≤ 1 + 1/(q:ℝ) := by
      rw [div_le_iff hδpos, hcast, ha2b]
      nlinarith [hfrac_pos, hfrac_le]
    linarith

/-- C1: for every valid construction (any capacity `N` and slack
`0 < δ < 1` the planner accepts) and every sequence of distinct keys of
length at most `N * (1 - δ)`, every insert succeeds and an immediate
lookup of the inserted key returns the value just inserted — for every
hash function `h1`. -/
theorem c1_insert_then_lookup (h1 : Nat → Nat) (N : Nat) (δ : ℚ) (t₀ : ElasticTable)
    (kvs : List (Nat × Nat)) (hcons : construct N δ = .ok t₀)
    (hnd : (kvs.map Prod.fst).Nodup) (hlen : kvs.length ≤ maxSize N δ) :
    InsertsVisible h1 t₀ kvs := by
  have hRI : ReachableI h1 N δ t₀ := ReachableI.init t₀ hcons
  obtain ⟨hv, ht⟩ := construct_ok_iff.mp hcons
  have hfacts := mkTable_facts hv h1
  apply insertsVisible_aux kvs t₀ hRI
  · intro kv _ hk
    rw [ht] at hk
    exact hfacts.2.2.2.1 kv.1 hk
  · exact hnd
  · rw [ht, hfacts.2.2.1]
    omega

/-- C1 witness: on the table `construct 4 (1/2)` (two usable slots), the
two distinct keys 5 and 9 are inserted and each lookup sees its value. -/
theorem c1_witness : InsertsVisible hId t4 [(5, 7), (9, 8)] :=
  c1_insert_then_lookup hId 4 (1/2) t4 [(5, 7), (9, 8)] construct_4 (by decide)
    (by rw [maxSize_4]; decide)

/-- C3 counterexample: after inserting two keys into `construct 4 (1/2)`
(reaching the maximum logical size 2) and then deleting one of them, the
logical size is 1 < 2 = `N * (1 - δ)`, yet inserting a fresh key fails
with `TableFull`, because the tombstone keeps every level at its load
threshold.  So insert failing does not imply the logical size has reached
`N * (1 - δ)`. -/
theorem c3_counterexample :
    Reachable hId 4 (1/2) t4c ∧ insert hId t4c 2 12 = .error .tableFull ∧
      size t4c ≠ maxSize 4 (1/2) := by
  refine ⟨t4c_reach, by rfl, ?_⟩
  rw [maxSize_4]
  decide

/-- C3 amended: the logical size never exceeds `N * (1 - δ)` (for every
reachable state, deletions included), and in deletion-free histories an
insert of a fresh key fails with `TableFull` exactly when the logical size
has reached `N * (1 - δ)` (so the `(N * (1 - δ) + 1)`-th distinct insert
fails).  With deletions, tombstones can keep every level at threshold and
make a fresh insert fail below that size (see the counterexample). -/
theorem c3_amended :
    (∀ (h1 : Nat → Nat) (N : Nat) (δ : ℚ) (t : ElasticTable),
        Reachable h1 N δ t → size t ≤ maxSize N δ) ∧
    (∀ (h1 : Nat → Nat) (N : Nat) (δ : ℚ) (t : ElasticTable) (k v : Nat),
        ReachableI h1 N δ t → ¬ tableHasKey t k →
        (insert h1 t k v = .error .tableFull ↔ size t = maxSize N δ)) := by
  constructor
  · intro h1 N δ t hR
    exact size_le_maxSize hR
  · intro h1 N δ t k v hRI hnk
    obtain ⟨hR, hNT⟩ := reachableI_spec hRI
    obtain ⟨hv, hInv, _⟩ := reachable_spec hR
    rw [insert_error_char hInv]
    constructor
    · intro ⟨_, hclosed⟩
      have hge : ∀ L ∈ t.levels, L.threshold ≤ L.occupiedCount := by
        intro L hL
        rw [occ_eq_cc_of_noTomb (hNT L hL)]
        exact hclosed L hL
      have hsum := List.sum_le_sum hge
      rw [thr_sum_eq hR] at hsum
      have h2 := size_le_maxSize hR
      have h3 : maxSize N δ ≤ size t := hsum
      omega
    · intro hsz
      exact ⟨hnk, all_closed_of_size_eq hRI hsz⟩

/-- C3 witness: at the full table `t4b` (size 2 = maximum), a fresh insert
fails if and only if the size equals the maximum. -/
theorem c3_witness :
    size t4b ≤ maxSize 4 (1/2) ∧
      (insert hId t4b 5 0 = .error .tableFull ↔ size t4b = maxSize 4 (1/2)) :=
  ⟨c3_amended.1 hId 4 (1/2) t4b t4b_reach,
   c3_amended.2 hId 4 (1/2) t4b 5 0 t4b_reachI
     (by rw [tableHasKey_iff_B]; decide)⟩

/-- C4: inserting the same key twice is an in-place update: the second
insert succeeds, a lookup then returns the second value, and the logical
size is unchanged from after the first insert. -/
theorem c4_update_in_place (h1 : Nat → Nat) (N : Nat) (δ : ℚ) (t : ElasticTable)
    (k v₁ v₂ p₁ : Nat) (t₁ : ElasticTable) (hR : Reachable h1 N δ t)
    (hins : insert h1 t k v₁ = .ok (p₁, t₁)) :
    ∃ p₂ t₂, insert h1 t₁ k v₂ = .ok (p₂, t₂) ∧ lookup h1 t₂ k = some v₂ ∧
      size t₂ = size t₁ := by
  have hInv := (reachable_spec hR).2.1
  obtain ⟨hInv1, _, _, hkeys1, _, _, _⟩ := insert_ok_spec hInv hins
  have hk1 : tableHasKey t₁ k := (hkeys1 k).mpr (Or.inl rfl)
  obtain ⟨p₂, t₂, hins2⟩ := insert_ok_of_hasKey v₂ hInv1 hk1
  obtain ⟨_, _, hlook2, _, hsz2, _, _⟩ := insert_ok_spec hInv1 hins2
  exact ⟨p₂, t₂, hins2, hlook2, hsz2 hk1⟩

/-- C4 witness: re-inserting key 0 into `t4a` with a new value. -/
theorem c4_witness :
    ∃ p₂ t₂, insert hId t4a 0 99 = .ok (p₂, t₂) ∧ lookup hId t₂ 0 = some 99 ∧
      size t₂ = size t4a :=
  c4_update_in_place hId 4 (1/2) t4 0 10 99 1 t4a t4_reach t4_ins0

/-- C5: construction fails with `InvalidConfiguration` exactly when the
slack is outside `(0,1)` or the planned layout gives some (equivalently,
the smallest) level fewer than one slot — the meaning of the capacity
being below the minimum the planner needs; and a failed construction
yields no table: any returned table certifies a valid configuration. -/
theorem c5_construct_validation (N : Nat) (δ : ℚ) :
    (construct N δ = .error .invalidConfiguration ↔
      (δ ≤ 0 ∨ 1 ≤ δ ∨ ∃ c ∈ planCaps N δ, c = 0)) ∧
    (∀ t, construct N δ = .ok t → (0 < δ ∧ δ < 1 ∧ ∀ c ∈ planCaps N δ, 1 ≤ c)) := by
  constructor
  · unfold construct
    by_cases hv : 0 < δ ∧ δ < 1 ∧ ∀ c ∈ planCaps N δ, 1 ≤ c
    · rw [if_pos hv]
      constructor
      · intro h
        exact Except.noConfusion h
      · intro h
        exfalso
        obtain ⟨h0, h1, hc⟩ := hv
        rcases h with h | h | ⟨c, hc0, hceq⟩
        · exact absurd h (not_le.mpr h0)
        · exact absurd h (not_le.mpr h1)
        · have := hc c hc0
          omega
    · rw [if_neg hv]
      constructor
      · intro _
        by_cases h0 : 0 < δ
        · by_cases h1 : δ < 1
          · right; right
            have hc : ¬ ∀ c ∈ planCaps N δ, 1 ≤ c := fun hc => hv ⟨h0, h1, hc⟩
            push_neg at hc
            obtain ⟨c, hcmem, hclt⟩ := hc
            exact ⟨c, hcmem, by omega⟩
          · right; left
            exact not_lt.mp h1
        · left
          exact not_lt.mp h0
      · intro _
        rfl
  · intro t h
    exact (construct_ok_iff.mp h).1

/-- C5 witness: `δ = 3/2` is rejected, and the valid `construct 4 (1/2)`
certifies its configuration. -/
theorem c5_witness :
    construct 4 (3/2) = .error .invalidConfiguration ∧
      (0 < (1/2 : ℚ) ∧ (1/2 : ℚ) < 1 ∧ ∀ c ∈ planCaps 4 (1/2), 1 ≤ c) :=
  ⟨(c5_construct_validation 4 (3/2)).1.mpr (Or.inr (Or.inl (by norm_num))),
   (c5_construct_validation 4 (1/2)).2 t4 construct_4⟩

/-- C6: deleting a key and immediately looking it up yields NotFound
(`none`), and deleting an absent key returns `false` and leaves the table
(hence its logical size and every slot) unchanged. -/
theorem c6_delete_then_lookup (h1 : Nat → Nat) (N : Nat) (δ : ℚ) (t : ElasticTable)
    (k : Nat) (hR : Reachable h1 N δ t) :
    lookup h1 (deleteKey h1 t k).2 k = none ∧
      (¬ tableHasKey t k → deleteKey h1 t k = (false, t)) := by
  have hInv := (reachable_spec hR).2.1
  obtain ⟨_, _, hlook, hfalse⟩ := delete_spec hInv
  exact ⟨hlook, hfalse⟩

/-- C6 witness: deleting the present key 1 from `t4b` makes it
unfindable, and deleting the absent key 7 returns false with the table
unchanged. -/
theorem c6_witness :
    (lookup hId (deleteKey hId t4b 1).2 1 = none ∧
      (¬ tableHasKey t4b 1 → deleteKey hId t4b 1 = (false, t4b))) ∧
      (¬ tableHasKey t4b 7 → deleteKey hId t4b 7 = (false, t4b)) :=
  ⟨c6_delete_then_lookup hId 4 (1/2) t4b 1 t4b_reach,
   (c6_delete_then_lookup hId 4 (1/2) t4b 7 t4b_reach).2⟩

/-- C7: in every reachable state, a key stored in the table occupies
exactly one slot in exactly one level (no key in two levels, nor in two
slots of one level), and the current_count of every level is within its
capacity; the inductive reachability covers construction and every
insert, lookup and delete. -/
theorem c7_invariants (h1 : Nat → Nat) (N : Nat) (δ : ℚ) (t : ElasticTable)
    (hR : Reachable h1 N δ t) :
    (∀ i j k, (hi : i < t.levels.length) → (hj : j < t.levels.length) →
      (t.levels.get ⟨i, hi⟩).hasKey k → (t.levels.get ⟨j, hj⟩).hasKey k → i = j) ∧
    (∀ L ∈ t.levels, ∀ p q k v v', holdsVal L p k v → holdsVal L q k v' → p = q) ∧
    (∀ L ∈ t.levels, L.currentCount ≤ L.capacity) := by
  obtain ⟨_, ⟨hmem, hdisj, _⟩, _⟩ := reachable_spec hR
  refine ⟨?_, ?_, ?_⟩
  · intro i j k hi hj hik hjk
    by_contra hne
    rcases Nat.lt_or_ge i j with hij | hij
    · exact (List.pairwise_iff_getElem.mp hdisj) i j hi hj hij k hik hjk
    · have hji : j < i := by omega
      exact (List.pairwise_iff_getElem.mp hdisj) j i hj hi hji k hjk hik
  · intro L hL p q k v v' hp hq
    exact ((hmem L hL).2.1 p q k v v' hp hq).1
  · intro L hL
    obtain ⟨_, h2, h3⟩ := (hmem L hL).1
    omega

/-- C7 witness: the current_count of the first level of `t4b` is within
its capacity. -/
theorem c7_witness :
    Level.currentCount ⟨1, [.occupied 0 10, .empty, .empty]⟩ ≤
      Level.capacity ⟨1, [.occupied 0 10, .empty, .empty]⟩ :=
  (c7_invariants hId 4 (1/2) t4b t4b_reach).2.2 _ (by decide)

/-- C8: a successful insert always returns a probe count of at least 1;
no insert reports zero probes. -/
theorem c8_probe_count_positive (h1 : Nat → Nat) (t : ElasticTable) (k v p : Nat)
    (t' : ElasticTable) (h : insert h1 t k v = .ok (p, t')) : 1 ≤ p :=
  insertGo_ok_probe_pos (insert_ok_iff.mp h)

/-- C8 witness: the very first insert into `construct 4 (1/2)` reports
probe count 1. -/
theorem c8_witness : insert hId t4 0 10 = .ok (1, t4a) ∧ 1 ≤ 1 :=
  ⟨t4_ins0, c8_probe_count_positive hId t4 0 10 1 t4a t4_ins0⟩

theorem insertedKeys_aux : ∀ ks : List Nat,
    List.filterMap (fun op => match op with | DemoOp.insert k _ => some k | _ => none)
      (ks.map (fun k => DemoOp.insert k 0)) = ks
  | [] => rfl
  | k :: ks => by
    simp only [List.map_cons, List.filterMap_cons]
    rw [insertedKeys_aux ks]

theorem insertedKeys_demoTrace (ks : List Nat) : insertedKeys (demoTrace ks) = ks := by
  unfold demoTrace insertedKeys
  rw [List.filterMap_cons]
  exact insertedKeys_aux ks

/-- C9: whatever order the shuffle produced, the driver script performs
one single construction, with capacity 1000000 and slack 1/20, uses only
`construct` and `insert` (never lookup, delete, size or capacity), and
inserts exactly the 950000 distinct integer keys 0..949999, each exactly
once — and 950000 is exactly `maxSize N δ`, the floor of `N * (1 - δ)`. -/
theorem c9_demo_driver (ks : List Nat) (hperm : ks.Perm (List.range demoKeyCount)) :
    (demoTrace ks).filter DemoOp.isConstruct = [DemoOp.construct 1000000 (1/20)] ∧
    (∀ op ∈ demoTrace ks, DemoOp.isConstruct op = true ∨ DemoOp.isInsert op = true) ∧
    (insertedKeys (demoTrace ks)).Perm (List.range 950000) ∧
    (insertedKeys (demoTrace ks)).Nodup ∧
    (insertedKeys (demoTrace ks)).length = 950000 ∧
    maxSize demoN demoDelta = 950000 := by
  have hik := insertedKeys_demoTrace ks
  refine ⟨?_, ?_, ?_, ?_, ?_, maxSize_demo⟩
  · unfold demoTrace
    simp only [List.filter_cons]
    rw [if_pos (by rfl)]
    have htail : ((ks.map (fun k => DemoOp.insert k 0)).filter DemoOp.isConstruct) = [] := by
      rw [List.filter_eq_nil_iff]
      intro op hop
      obtain ⟨k, _, hk⟩ := List.mem_map.mp hop
      rw [← hk]
      simp [DemoOp.isConstruct]
    rw [htail]
    rfl
  · intro op hop
    unfold demoTrace at hop
    rcases List.mem_cons.mp hop with h | h
    · left; rw [h]; rfl
    · right
      obtain ⟨k, _, hk⟩ := List.mem_map.mp h
      rw [← hk]
      rfl
  · rw [hik]
    exact hperm
  · rw [hik]
    exact hperm.nodup_iff.mpr (List.nodup_range _)
  · rw [hik, hperm.length_eq, List.length_range]
    rfl

/-- C9 witness: the identity shuffle outcome. -/
theorem c9_witness :
    (demoTrace (List.range demoKeyCount)).filter DemoOp.isConstruct =
        [DemoOp.construct 1000000 (1/20)] ∧
    (∀ op ∈ demoTrace (List.range demoKeyCount),
        DemoOp.isConstruct op = true ∨ DemoOp.isInsert op = true) ∧
    (insertedKeys (demoTrace (List.range demoKeyCount))).Perm (List.range 950000) ∧
    (insertedKeys (demoTrace (List.range demoKeyCount))).Nodup ∧
    (insertedKeys (demoTrace (List.range demoKeyCount))).length = 950000 ∧
    maxSize demoN demoDelta = 950000 :=
  c9_demo_driver (List.range demoKeyCount) (List.Perm.refl _)

/-- C10: for any two outcomes of `random.shuffle`, the multiset of keys
the driver passes to `insert` is the same — the integers 0..949999, each
exactly once — so the inserted keys are pairwise distinct and no insert
of the run can be a repeated-key update. -/
theorem c10_shuffle_invariant (ks₁ ks₂ : List Nat)
    (h₁ : ks₁.Perm (List.range demoKeyCount))
    (h₂ : ks₂.Perm (List.range demoKeyCount)) :
    (insertedKeys (demoTrace ks₁)).Perm (insertedKeys (demoTrace ks₂)) ∧
    (insertedKeys (demoTrace ks₁)).Perm (List.range 950000) ∧
    (insertedKeys (demoTrace ks₁)).Nodup := by
  rw [insertedKeys_demoTrace, insertedKeys_demoTrace]
  exact ⟨h₁.trans h₂.symm, h₁, h₁.nodup_iff.mpr (List.nodup_range _)⟩

/-- C2 counterexample: the claim fails on the spec's own terms, for every
probe-cap and second-hash tunable of the unseen implementation.  Every
successful insert returns a probe count of at least 1 (spec section 6),
while `C * log(1/δ)` drops below 1 as `δ` approaches 1.  Concretely, for
any constant `C` pick `q > C`: `construct (2*q) (1 - 1/(2*q))` is a valid
construction, the very first insert (identity hash, fresh table) succeeds
with probe count 2, yet `C * log(1/(1 - 1/(2*q))) ≤ C/q < 1 < 2`. -/
theorem c2_counterexample : ¬ ProbeBoundClaim := by
  intro hclaim
  obtain ⟨C, hC⟩ := hclaim
  obtain ⟨m, hm⟩ := exists_nat_gt C
  have hq : (1:ℕ) ≤ m + 1 := by omega
  have hle := hC hId (2*(m+1)) (thinDelta (m+1)) (thinState (m+1)) 0 0 2 _
    (thin_reachable (m+1) hq) (thin_insert (m+1) hq)
  obtain ⟨hlog0, hlogle⟩ := thin_log_bound (m+1) hq
  have hCm : C * Real.log (1/((thinDelta (m+1) : ℚ):ℝ)) ≤
      (m:ℝ) * Real.log (1/((thinDelta (m+1) : ℚ):ℝ)) :=
    mul_le_mul_of_nonneg_right (le_of_lt hm) hlog0
  have hmle : (m:ℝ) * Real.log (1/((thinDelta (m+1) : ℚ):ℝ)) ≤
      (m:ℝ) * (1/((m+1 : ℕ):ℝ)) :=
    mul_le_mul_of_nonneg_left hlogle (Nat.cast_nonneg m)
  have hpos1 : (0:ℝ) < ((m+1 : ℕ):ℝ) := by
    have h1 : (1:ℝ) ≤ ((m+1:ℕ):ℝ) := by exact_mod_cast hq
    linarith
  have hlast : (m:ℝ) * (1/((m+1 : ℕ):ℝ)) < 2 := by
    rw [mul_one_div, div_lt_iff hpos1]
    push_cast
    linarith
  have h2c : ((2:ℕ):ℝ) = 2 := by norm_num
  linarith

/-- C2 (amended): the spec's worst-case figure needs an additive constant
(as stated it is already broken by `δ` close to 1, where it demands fewer
than one probe).  The certified `log`-shaped part: on a freshly
constructed table, every successful insert — for every hash function —
costs at most `numLevels δ` probes, the planner's level count
`⌈log2 ⌈1/δ⌉⌉ + 1`, independent of the capacity `N`. -/
theorem c2_probe_bound_amended (h1 : Nat → Nat) (N : Nat) (δ : ℚ) (t : ElasticTable)
    (k v p : Nat) (t' : ElasticTable) (hcons : construct N δ = .ok t)
    (hins : insert h1 t k v = .ok (p, t')) :
    p ≤ numLevels δ := by
  have hple := insertGo_ok_probe_le (insert_ok_iff.mp hins)
  rw [sum_probeLen] at hple
  obtain ⟨hv, ht⟩ := construct_ok_iff.mp hcons
  have hlen := @levels_length_of_reachable h1 N δ t (@Reachable.init h1 N δ t hcons)
  have hcc : ∀ L ∈ t.levels, Level.currentCount L = 0 := by
    subst ht
    intro L hL
    have hNT := (mkTable_facts hv h1).2.1 L hL
    have hocc : Level.occupiedCount L = 0 := by
      have hsz := (mkTable_facts hv h1).2.2.1
      unfold size at hsz
      rw [List.sum_eq_zero_iff] at hsz
      exact hsz _ (List.mem_map.mpr ⟨L, hL, rfl⟩)
    rw [← occ_eq_cc_of_noTomb hNT]
    exact hocc
  have hsum0 : (t.levels.map Level.currentCount).sum = 0 := by
    rw [List.sum_eq_zero_iff]
    intro x hx
    rw [List.mem_map] at hx
    obtain ⟨L, hL, hLx⟩ := hx
    rw [← hLx]
    exact hcc L hL
  omega

/-- C2 amended witness: the first insert into `construct 4 (1/2)` costs 1
probe, within the level count `numLevels (1/2) = 2`. -/
theorem c2_amended_witness :
    construct 4 (1/2) = .ok t4 ∧ insert hId t4 0 10 = .ok (1, t4a) ∧
      1 ≤ numLevels (1/2) :=
  ⟨construct_4, t4_ins0,
    c2_probe_bound_amended hId 4 (1/2) t4 0 10 1 t4a construct_4 t4_ins0⟩

/-- C10 witness: two identical shuffle outcomes. -/
theorem c10_witness :
    (insertedKeys (demoTrace (List.range demoKeyCount))).Perm
        (insertedKeys (demoTrace (List.range demoKeyCount))) ∧
    (insertedKeys (demoTrace (List.range demoKeyCount))).Perm (List.range 950000) ∧
    (insertedKeys (demoTrace (List.range demoKeyCount))).Nodup :=
  c10_shuffle_invariant (List.range demoKeyCount) (List.range demoKeyCount)
    (List.Perm.refl _) (List.Perm.refl _)

end ElasticHash
